import Mathlib

/-!
# Verification of the QCircuitNet Simon secret-recovery core

This development embeds the classical post-processing code of the Simon
hidden-subgroup family from the QCircuitNet dataset repository:

* `simon_post_processing.py` — binary secret extraction (`solve_equation`,
  `run_and_analyze`);
* `simon_ternary_post_processing.py` — ternary extraction (`rref_mod3`,
  `recover_secret_string_3d`);
* `ternary_simon_generation.py` / `simon_ternary_dataset.py` — the ternary
  cycle decomposition (`find_ternary_cycles`);
* `multi_simon_post_processing.py` — the two-secret disambiguation
  (`recover_secret_string`, `post_processing`, `run_and_analyze`).

Python digit strings such as `"0211"` are modelled as lists of natural-number
digits; Python integers reduced mod `p` are modelled as elements of `ZMod p`.
The binary path calls sympy's `Matrix.rref` with
`iszerofunc=lambda x: x % 2 == 0` followed by `applyfunc(mod2)`; sympy is an
external library whose internals are not part of the repository, and the
specification (§4.3, §9) states that this call and the hand-rolled mod-3
reduction `rref_mod3` are one and the same column-scan Gaussian elimination
parametrised by the modulus.  Accordingly the row reduction is defined once,
over an arbitrary decidable field, as the faithful translation of the
`rref_mod3` loop from the source; its mod-3 instance *is* `rref_mod3`, and its
mod-2 instance models the sympy call of the binary path.
-/

namespace QSimon

/-- Digit strings (Python `str` over the characters `0`, `1`, `2`) are
modelled as lists of natural-number digits. -/
abbrev DStr := List ℕ

/-! ## Ternary cycle decomposition (`find_ternary_cycles`)

Source: `ternary_simon_generation.py`, lines 9–47 (verbatim copy in
`simon_ternary_dataset.py`). -/

/-- `generate_ternary_numbers(qudits_num)`: all length-`n` ternary digit
strings, built by appending each of `0,1,2` to every shorter string. -/
def generate_ternary_numbers : ℕ → List DStr
  | 0 => [[]]
  | m + 1 => (generate_ternary_numbers m).flatMap fun x => [x ++ [0], x ++ [1], x ++ [2]]

/-- `add_ternary(t1, t2)`: digit-wise sum mod 3, over the index range of the
first argument. -/
def add_ternary (t1 t2 : DStr) : DStr :=
  (List.range t1.length).map fun i => (t1.getD i 0 + t2.getD i 0) % 3

/-- The `while current not in seen_cycles` loop of `find_cycle`, with explicit
fuel.  `seen_cycles` contains exactly the elements appended to
`ternary_cycle`, so the loop guard is membership in the accumulated cycle. -/
def find_cycle_aux (s : DStr) : ℕ → DStr → List DStr → List DStr
  | 0, _, acc => acc
  | fuel + 1, current, acc =>
    if current ∈ acc then acc
    else find_cycle_aux s fuel (add_ternary current s) (acc ++ [current])

/-- `find_cycle(start, secret_string)`: walk the orbit of `start` under
repeated `add_ternary` with the secret until the first repetition.  The fuel
`3 ^ start.length + 1` strictly exceeds the universe size, hence is never
exhausted. -/
def find_cycle (start s : DStr) : List DStr :=
  find_cycle_aux s (3 ^ start.length + 1) start []

/-- The `for number in ternary_numbers` loop of `find_ternary_cycles`:
state is the cycle list and the `seen` set (modelled as a list, queried only
for membership). -/
def find_ternary_cycles_aux (s : DStr) : List DStr → List (List DStr) → List DStr → List (List DStr)
  | [], cycles, _ => cycles
  | number :: rest, cycles, seen =>
    if number ∈ seen then find_ternary_cycles_aux s rest cycles seen
    else
      find_ternary_cycles_aux s rest (cycles ++ [find_cycle number s]) (seen ++ find_cycle number s)

/-- `find_ternary_cycles(n, secret_string)`: partition all length-`n` ternary
strings into orbits under addition of the secret. -/
def find_ternary_cycles (n : ℕ) (s : DStr) : List (List DStr) :=
  find_ternary_cycles_aux s (generate_ternary_numbers n) [] []

/-! ## The modular row reduction

`rref_mod3` (`simon_ternary_post_processing.py`, lines 29–74), written over an
arbitrary decidable field so that the same loop serves as the model of the
binary path's sympy `rref`-mod-2 call (spec §4.3/§9: the two are one algorithm
parametrised by the modulus). -/

variable {F : Type} [Field F] [DecidableEq F]

/-- A matrix as a list of rows, as produced by `sympy.Matrix` /
nested Python lists. -/
abbrev Mat (F : Type) := List (List F)

/-- `M[i, j]`, with out-of-range reads defaulting to `0` (never exercised on
well-formed shapes). -/
def entry (M : Mat F) (i j : ℕ) : F := (M.getD i []).getD j 0

/-- Row `i` of `M`. -/
def rowOf (M : Mat F) (i : ℕ) : List F := M.getD i []

/-- The `for ri in range(r, rows): if M[ri, c] != 0: pivot_row = ri; break`
pivot search, with fuel `rows - r` and running index `ri`. -/
def findPivotAux (M : Mat F) (c : ℕ) : ℕ → ℕ → Option ℕ
  | 0, _ => none
  | fuel + 1, ri => if entry M ri c ≠ 0 then some ri else findPivotAux M c fuel (ri + 1)

/-- `M.row_swap(i, j)`. -/
def rowSwap (M : Mat F) (i j : ℕ) : Mat F := (M.set i (rowOf M j)).set j (rowOf M i)

/-- `for j in range(cols): M[r, j] = mod3(k * M[r, j])` — scale row `r`. -/
def scaleRow (M : Mat F) (r : ℕ) (k : F) : Mat F :=
  M.set r ((rowOf M r).map fun x => k * x)

/-- `M[ri, j] = mod3(M[ri, j] - multiplier * M[r, j])` across a row. -/
def subRow (a : List F) (m : F) (b : List F) : List F :=
  List.zipWith (fun x y => x - m * y) a b

/-- One iteration of the elimination loop:
`if ri != r and M[ri, c] != 0: subtract multiplier * pivot row`. -/
def elimStep (M : Mat F) (r c ri : ℕ) : Mat F :=
  if ri = r then M
  else if entry M ri c = 0 then M
  else M.set ri (subRow (rowOf M ri) (entry M ri c) (rowOf M r))

/-- The `for ri in range(rows)` elimination loop, with fuel and running
index. -/
def elimAux (r c : ℕ) : ℕ → ℕ → Mat F → Mat F
  | 0, _, M => M
  | fuel + 1, ri, M => elimAux r c fuel (ri + 1) (elimStep M r c ri)

/-- Eliminate column `c` against pivot row `r` in every other row. -/
def eliminate (M : Mat F) (r c rows : ℕ) : Mat F := elimAux r c rows 0 M

/-- The `for c in range(cols)` loop of `rref_mod3`: find a pivot at or below
row `r` in column `c`, swap it up, normalise it to `1` by the modular inverse
`vinv` of the pivot, eliminate the column elsewhere, record the pivot column,
and stop once `r == rows`.  `vinv` models Python's `pow(pivot_val, -1, p)`;
it is a parameter because the extended-gcd inverse is supplied in executable
form per modulus. -/
def rrefAux (vinv : F → F) (rows : ℕ) : ℕ → ℕ → ℕ → Mat F → List ℕ → Mat F × List ℕ
  | 0, _, _, M, pcs => (M, pcs)
  | fuel + 1, c, r, M, pcs =>
    match findPivotAux M c (rows - r) r with
    | none => rrefAux vinv rows fuel (c + 1) r M pcs
    | some pr =>
      let M1 := if pr ≠ r then rowSwap M pr r else M
      let pv := entry M1 r c
      let M2 := if pv ≠ 1 then scaleRow M1 r (vinv pv) else M1
      let M3 := eliminate M2 r c rows
      if r + 1 = rows then (M3, pcs ++ [c])
      else rrefAux vinv rows fuel (c + 1) (r + 1) M3 (pcs ++ [c])

/-- Reduced row-echelon form over `F` with explicit row/column counts;
returns the reduced matrix and the pivot-column list. -/
def rrefF (vinv : F → F) (rows cols : ℕ) (M : Mat F) : Mat F × List ℕ :=
  rrefAux vinv rows cols 0 0 M []

/-- Python's `pow(x, -1, p)` — the modular inverse of `x` mod a prime `p` —
in the executable Fermat form `x ^ (p - 2)` (equal to the inverse on every
non-zero element, the only ones the reduction applies it to). -/
def pyModInv (p : ℕ) (x : ZMod p) : ZMod p := x ^ (p - 2)

/-- `rref_mod3(M)`: the mod-3 instance, on a rectangular matrix given as a
list of rows (entries already reduced mod 3, so the initial
`applyfunc(mod3)` is the identity). -/
def rref_mod3 (M : Mat (ZMod 3)) : Mat (ZMod 3) × List ℕ :=
  rrefF (pyModInv 3) M.length M.headI.length M

/-! ## Binary secret extraction (`simon_post_processing.py`) -/

/-- `Matrix(...).T` on a `rows × cols` rectangular matrix. -/
def transposeL (M : Mat F) (rows cols : ℕ) : Mat F :=
  (List.range cols).map fun j => (List.range rows).map fun i => entry M i j

/-- The `n × n` identity matrix `np.eye(n)`. -/
def identityL (n : ℕ) : Mat F :=
  (List.range n).map fun i => (List.range n).map fun j => if i = j then (1 : F) else 0

/-- `np.hstack([M, np.eye(M.shape[0])])`: append the identity block
row-wise. -/
def mkAugmented (Mt : Mat F) : Mat F := List.zipWith (· ++ ·) Mt (identityL Mt.length)

/-- The tail of `solve_equation`: inspect the last row of the reduced matrix;
if its first `k` entries are all zero return its identity-block entries as the
digit string, else return the all-zero string of length `n`. -/
def extractLast {p : ℕ} [NeZero p] (R : Mat (ZMod p)) (k n : ℕ) : DStr :=
  if ((rowOf R (n - 1)).take k).all (fun x => x = 0) then
    ((rowOf R (n - 1)).drop k).map ZMod.val
  else List.replicate n 0

/-- `solve_equation(string_list)` from `simon_post_processing.py`: transpose
the equations, augment with the identity, row-reduce mod 2 (the sympy
`rref(iszerofunc=lambda x: x % 2 == 0)` + `applyfunc(mod2)` pair, modelled per
spec §4.3 as the mod-2 instance of the unified reduction), then read the last
row. -/
def solve_equation (string_list : List DStr) : DStr :=
  let k := string_list.length
  let n := string_list.headI.length
  let Mt := transposeL (string_list.map fun v => v.map fun d : ℕ => (d : ZMod 2)) k n
  let MI := mkAugmented Mt
  extractLast (rrefF (pyModInv 2) n (k + n) MI).1 k n

/-- The measurement-filtering part of the binary `run_and_analyze`: drop the
all-zero outcome, then fall back to the all-zero string when nothing is left,
else solve.  (The circuit execution producing `results` is external.) -/
def run_and_analyze_binary (n : ℕ) (results : List DStr) : DStr :=
  let equations := results.filter fun r => r ≠ List.replicate n 0
  if equations.length = 0 then List.replicate n 0
  else solve_equation equations

/-! ## Ternary secret extraction (`simon_ternary_post_processing.py`) -/

/-- `binary_to_ternary(binary_str)`: two bits per ternary digit,
`int(binary_str[i:i+2], 2)`. -/
def binary_to_ternary : DStr → DStr
  | a :: b :: rest => (2 * a + b) :: binary_to_ternary rest
  | [a] => [a]
  | [] => []

/-- The row-scanning loop at the end of `recover_secret_string_3d`: the state
is the pair `(null_space_found, first_solution)`, initially
`(False, '0' * n)`; a row whose first `k` entries are zero mod 3 yields its
identity-block entries, recorded only if no earlier row qualified. -/
def findFirstSolution (R : Mat (ZMod 3)) (k n : ℕ) : DStr :=
  (R.foldl
    (fun acc rw =>
      if (rw.take k).all (fun x => x = 0) then
        if acc.1 then acc else (true, (rw.drop k).map ZMod.val)
      else acc)
    (false, List.replicate n 0)).2

/-- `recover_secret_string_3d(n, results)`: filter out the all-zero binary
outcome, convert outcomes to ternary, and either return the degenerate pair
`('0' * n, 0)` (a 2-tuple, `Sum.inl`) or solve mod 3 and return the bare
string `first_solution` (`Sum.inr`) — the two branches of the source return
differently shaped values, which the sum type records. -/
def recover_secret_string_3d (n : ℕ) (results : List DStr) : (DStr × ℕ) ⊕ DStr :=
  let equations := (results.filter fun r => r ≠ List.replicate (2 * n) 0).map binary_to_ternary
  if equations = [] then Sum.inl (List.replicate n 0, 0)
  else
    let k := equations.length
    let nn := equations.headI.length
    let Mt := transposeL (equations.map fun v => v.map fun d : ℕ => (d : ZMod 3)) k nn
    let MI := mkAugmented Mt
    Sum.inr (findFirstSolution (rrefF (pyModInv 3) nn (k + nn) MI).1 k n)

/-! ## Multi-secret disambiguation (`multi_simon_post_processing.py`) -/

/-- `post_processing(string_list)` of the multi-secret file: a verbatim copy
of `solve_equation`. -/
def post_processing (string_list : List DStr) : DStr := solve_equation string_list

/-- `recover_secret_string(n, results)`: drop the all-zero outcome, fall back
to `'0' * n` on empty, else post-process. -/
def recover_secret_string (n : ℕ) (results : List DStr) : DStr :=
  let equations := results.filter fun r => r ≠ List.replicate n 0
  if equations.length = 0 then List.replicate n 0
  else post_processing equations

/-- The bucketing tail of the multi-secret `run_and_analyze`: samples whose
first bit is `1` go to `dic1`, the rest to `dic2` (keys truncated to their
tail), and the returned pair is
`(recover_secret_string n dic2, recover_secret_string n dic1)`. -/
def multi_run_and_analyze (n : ℕ) (samples : List DStr) : DStr × DStr :=
  let dic1 := (samples.filter fun it => it.headI = 1).map List.tail
  let dic2 := (samples.filter fun it => ¬ it.headI = 1).map List.tail
  (recover_secret_string n dic2, recover_secret_string n dic1)

/-! ## Digit-list helpers -/

/-- A well-formed length-`n` ternary digit string. -/
def ValidT (n : ℕ) (t : DStr) : Prop := t.length = n ∧ ∀ d ∈ t, d < 3

lemma getD_map_range {α : Type} (f : ℕ → α) (d : α) {n i : ℕ} (h : i < n) :
    (((List.range n).map f).getD i d) = f i := by
  rw [List.getD_eq_getElem?_getD]
  simp [List.getElem?_map, List.getElem?_range, h]

lemma list_eq_of_getD {a b : List ℕ} (hlen : a.length = b.length)
    (h : ∀ i < a.length, a.getD i 0 = b.getD i 0) : a = b := by
  apply List.ext_getElem hlen
  intro i h1 h2
  have := h i h1
  rwa [List.getD_eq_getElem?_getD, List.getD_eq_getElem?_getD,
    List.getElem?_eq_getElem h1, List.getElem?_eq_getElem h2] at this

lemma getD_lt_of_valid {n : ℕ} {t : DStr} (hv : ValidT n t) (i : ℕ) : t.getD i 0 < 3 := by
  rcases lt_or_ge i t.length with h | h
  · rw [List.getD_eq_getElem _ _ h]
    exact hv.2 _ (List.getElem_mem h)
  · rw [List.getD_eq_default _ _ h]; norm_num

/-! ### Arithmetic of `add_ternary` -/

lemma add_ternary_length (t1 t2 : DStr) : (add_ternary t1 t2).length = t1.length := by
  simp [add_ternary]

lemma add_ternary_getD {t1 t2 : DStr} {i : ℕ} (h : i < t1.length) :
    (add_ternary t1 t2).getD i 0 = (t1.getD i 0 + t2.getD i 0) % 3 :=
  getD_map_range _ _ h

lemma add_ternary_valid {n : ℕ} {t s : DStr} (ht : ValidT n t) (hs : ValidT n s) :
    ValidT n (add_ternary t s) := by
  refine ⟨by rw [add_ternary_length, ht.1], ?_⟩
  intro d hd
  simp only [add_ternary, List.mem_map, List.mem_range] at hd
  obtain ⟨i, _, rfl⟩ := hd
  omega

lemma add_ternary_zero {n : ℕ} {t : DStr} (ht : ValidT n t) :
    add_ternary t (List.replicate n 0) = t := by
  refine (list_eq_of_getD (by rw [add_ternary_length, ht.1]) ?_).symm
  intro i hi
  rw [add_ternary_getD (by omega)]
  have h3 := getD_lt_of_valid ht i
  have : (List.replicate n 0).getD i 0 = 0 := by
    rcases lt_or_ge i n with h | h
    · rw [List.getD_eq_getElem _ _ (by simpa using h)]; simp
    · exact List.getD_eq_default _ _ (by simpa using h)
  rw [this]
  omega

lemma add_ternary_period {n : ℕ} {t s : DStr} (ht : ValidT n t) (hs : ValidT n s) :
    add_ternary (add_ternary (add_ternary t s) s) s = t := by
  have h1 := add_ternary_valid ht hs
  have h2 := add_ternary_valid h1 hs
  apply list_eq_of_getD
  · rw [add_ternary_length, add_ternary_length, add_ternary_length, ht.1]
  intro i hi
  rw [add_ternary_length, add_ternary_length, add_ternary_length] at hi
  rw [add_ternary_getD (by rw [add_ternary_length, add_ternary_length]; exact hi),
    add_ternary_getD (by rw [add_ternary_length]; exact hi), add_ternary_getD hi]
  have h3 := getD_lt_of_valid ht i
  omega

/-- A non-zero valid string has a non-zero digit at some position `< n`. -/
lemma exists_nonzero_digit {n : ℕ} {s : DStr} (hs : ValidT n s)
    (hne : s ≠ List.replicate n 0) : ∃ i < n, s.getD i 0 ≠ 0 := by
  by_contra h
  push_neg at h
  apply hne
  apply list_eq_of_getD (by simp [hs.1])
  intro i hi
  rw [hs.1] at hi
  rw [h i hi, List.getD_eq_getElem _ _ (by simpa using hi)]
  simp

lemma add_ternary_ne {n : ℕ} {t s : DStr} (ht : ValidT n t) (hs : ValidT n s)
    (hne : s ≠ List.replicate n 0) : add_ternary t s ≠ t := by
  obtain ⟨i, hin, hi⟩ := exists_nonzero_digit hs hne
  intro hEq
  have := congrArg (fun l => l.getD i 0) hEq
  simp only at this
  rw [add_ternary_getD (by rw [ht.1]; exact hin)] at this
  have h3 := getD_lt_of_valid ht i
  have h4 := getD_lt_of_valid hs i
  omega

/-! ### The orbit walk `find_cycle` -/

lemma find_cycle_aux_succ (s : DStr) (fuel : ℕ) (current : DStr) (acc : List DStr) :
    find_cycle_aux s (fuel + 1) current acc =
      if current ∈ acc then acc
      else find_cycle_aux s fuel (add_ternary current s) (acc ++ [current]) := rfl

/-- For the all-zero secret the orbit walk stops after one step. -/
lemma find_cycle_zero {n : ℕ} {t : DStr} (ht : ValidT n t) :
    find_cycle t (List.replicate n 0) = [t] := by
  obtain ⟨k, hk⟩ : ∃ k, 3 ^ t.length + 1 = (k + 1) + 1 := by
    have : 0 < 3 ^ t.length := Nat.pos_pow_of_pos _ (by norm_num)
    exact ⟨3 ^ t.length - 1, by omega⟩
  rw [find_cycle, hk, find_cycle_aux_succ, if_neg (List.not_mem_nil t),
    add_ternary_zero ht, find_cycle_aux_succ]
  simp

/-- For a non-zero secret the orbit walk returns exactly the three iterates
`t`, `t + s`, `t + 2s`. -/
lemma find_cycle_nonzero {n : ℕ} {t s : DStr} (ht : ValidT n t) (hs : ValidT n s)
    (hne : s ≠ List.replicate n 0) :
    find_cycle t s = [t, add_ternary t s, add_ternary (add_ternary t s) s] := by
  have hn : 1 ≤ n := by
    obtain ⟨i, hin, _⟩ := exists_nonzero_digit hs hne
    omega
  have h1 : add_ternary t s ≠ t := add_ternary_ne ht hs hne
  have hts := add_ternary_valid ht hs
  have h2 : add_ternary (add_ternary t s) s ≠ add_ternary t s := add_ternary_ne hts hs hne
  have hper := add_ternary_period ht hs
  have h3 : add_ternary (add_ternary t s) s ≠ t := by
    intro hEq
    apply h1
    calc add_ternary t s = add_ternary (add_ternary (add_ternary t s) s) s := by rw [hEq]
    _ = t := hper
  obtain ⟨k, hk⟩ : ∃ k, 3 ^ t.length + 1 = (((k + 1) + 1) + 1) + 1 := by
    have : 3 ≤ 3 ^ t.length := by
      calc 3 = 3 ^ 1 := rfl
      _ ≤ 3 ^ t.length := Nat.pow_le_pow_right (by norm_num) (by rw [ht.1]; omega)
    exact ⟨3 ^ t.length - 3, by omega⟩
  rw [find_cycle, hk, find_cycle_aux_succ, if_neg (List.not_mem_nil t)]
  rw [find_cycle_aux_succ, if_neg (by simpa using h1)]
  rw [find_cycle_aux_succ, if_neg (by simp [h3, h2])]
  rw [hper, find_cycle_aux_succ, if_pos (by simp)]
  simp

lemma mem_triple {α : Type} {x a b c : α} (h : x ∈ [a, b, c]) : x = a ∨ x = b ∨ x = c := by
  simpa using h

lemma find_cycle_start_mem {n : ℕ} {t s : DStr} (ht : ValidT n t) (hs : ValidT n s) :
    t ∈ find_cycle t s := by
  by_cases h : s = List.replicate n 0
  · rw [h, find_cycle_zero ht]; simp
  · rw [find_cycle_nonzero ht hs h]; simp

lemma find_cycle_valid {n : ℕ} {t s : DStr} (ht : ValidT n t) (hs : ValidT n s) :
    ∀ u ∈ find_cycle t s, ValidT n u := by
  by_cases h : s = List.replicate n 0
  · rw [h, find_cycle_zero ht]
    intro u hu
    rw [List.mem_singleton] at hu
    subst hu; exact ht
  · rw [find_cycle_nonzero ht hs h]
    intro u hu
    rcases mem_triple hu with rfl | rfl | rfl
    · exact ht
    · exact add_ternary_valid ht hs
    · exact add_ternary_valid (add_ternary_valid ht hs) hs

lemma find_cycle_closed {n : ℕ} {t s : DStr} (ht : ValidT n t) (hs : ValidT n s) :
    ∀ u ∈ find_cycle t s, add_ternary u s ∈ find_cycle t s := by
  by_cases h : s = List.replicate n 0
  · rw [h, find_cycle_zero ht]
    intro u hu
    rw [List.mem_singleton] at hu
    subst hu
    rw [add_ternary_zero ht]; simp
  · rw [find_cycle_nonzero ht hs h]
    intro u hu
    rcases mem_triple hu with rfl | rfl | rfl
    · simp
    · simp
    · rw [add_ternary_period ht hs]; simp

lemma find_cycle_nodup {n : ℕ} {t s : DStr} (ht : ValidT n t) (hs : ValidT n s) :
    (find_cycle t s).Nodup := by
  by_cases h : s = List.replicate n 0
  · rw [h, find_cycle_zero ht]; simp
  · rw [find_cycle_nonzero ht hs h]
    have h1 : add_ternary t s ≠ t := add_ternary_ne ht hs h
    have hts := add_ternary_valid ht hs
    have h2 : add_ternary (add_ternary t s) s ≠ add_ternary t s := add_ternary_ne hts hs h
    have h3 : add_ternary (add_ternary t s) s ≠ t := by
      intro hEq
      apply h1
      calc add_ternary t s = add_ternary (add_ternary (add_ternary t s) s) s := by rw [hEq]
      _ = t := add_ternary_period ht hs
    simp [h1, Ne.symm h1, h2, Ne.symm h2, h3, Ne.symm h3]

/-- Orbits of unseen starting points avoid any forward-closed visited set. -/
lemma find_cycle_disjoint_seen {n : ℕ} {t s : DStr} (ht : ValidT n t) (hs : ValidT n s)
    {seen : List DStr} (hcl : ∀ u ∈ seen, add_ternary u s ∈ seen) (hmem : t ∉ seen) :
    ∀ u ∈ find_cycle t s, u ∉ seen := by
  by_cases h : s = List.replicate n 0
  · rw [h, find_cycle_zero ht]
    intro u hu
    rw [List.mem_singleton] at hu
    subst hu; exact hmem
  · rw [find_cycle_nonzero ht hs h]
    intro u hu
    rcases mem_triple hu with rfl | rfl | rfl
    · exact hmem
    · intro hin
      exact hmem (by
        have h2 := hcl _ hin
        have h3 := hcl _ h2
        rwa [add_ternary_period ht hs] at h3)
    · intro hin
      exact hmem (by
        have h2 := hcl _ hin
        rwa [add_ternary_period ht hs] at h2)

/-! ### The universe `generate_ternary_numbers` -/

lemma generate_mem {n : ℕ} {x : DStr} :
    x ∈ generate_ternary_numbers n ↔ ValidT n x := by
  induction n generalizing x with
  | zero =>
    simp only [generate_ternary_numbers, List.mem_singleton, ValidT]
    constructor
    · rintro rfl; simp
    · rintro ⟨h, _⟩; exact List.length_eq_zero.mp h
  | succ m ih =>
    simp only [generate_ternary_numbers, List.mem_flatMap]
    constructor
    · rintro ⟨y, hy, hx⟩
      have hyv := ih.mp hy
      have : ∃ d < 3, x = y ++ [d] := by
        rcases mem_triple hx with h | h | h
        · exact ⟨0, by norm_num, h⟩
        · exact ⟨1, by norm_num, h⟩
        · exact ⟨2, by norm_num, h⟩
      obtain ⟨d, hd, rfl⟩ := this
      refine ⟨by simp [hyv.1], ?_⟩
      intro e he
      rcases List.mem_append.mp he with h | h
      · exact hyv.2 _ h
      · rw [List.mem_singleton] at h; omega
    · rintro ⟨hlen, hdig⟩
      have hne : x ≠ [] := by
        intro h; rw [h] at hlen; simp at hlen
      have hsplit := List.dropLast_append_getLast hne
      refine ⟨x.dropLast, ih.mpr ⟨?_, ?_⟩, ?_⟩
      · rw [List.length_dropLast, hlen]; rfl
      · intro d hd
        exact hdig _ (List.dropLast_subset x hd)
      · have hlast : x.getLast hne < 3 := hdig _ (List.getLast_mem hne)
        simp only [List.mem_cons, List.mem_singleton]
        have hc : x.getLast hne = 0 ∨ x.getLast hne = 1 ∨ x.getLast hne = 2 := by omega
        rcases hc with h | h | h
        · rw [h] at hsplit; exact Or.inl hsplit.symm
        · rw [h] at hsplit; exact Or.inr (Or.inl hsplit.symm)
        · rw [h] at hsplit; exact Or.inr (Or.inr (Or.inl hsplit.symm))

lemma generate_nodup (n : ℕ) : (generate_ternary_numbers n).Nodup := by
  induction n with
  | zero => simp [generate_ternary_numbers]
  | succ m ih =>
    rw [generate_ternary_numbers, List.nodup_flatMap]
    refine ⟨fun y _ => by simp, ?_⟩
    refine List.Nodup.pairwise_of_forall_ne ih ?_
    intro a ha b hb hab
    have hav := generate_mem.mp ha
    have hbv := generate_mem.mp hb
    intro x hxa hxb
    have : ∃ d, x = a ++ [d] := by
      rcases mem_triple hxa with h | h | h
      · exact ⟨0, h⟩
      · exact ⟨1, h⟩
      · exact ⟨2, h⟩
    obtain ⟨d, rfl⟩ := this
    have : ∃ e, a ++ [d] = b ++ [e] := by
      rcases mem_triple hxb with h | h | h
      · exact ⟨0, h⟩
      · exact ⟨1, h⟩
      · exact ⟨2, h⟩
    obtain ⟨e, he⟩ := this
    exact hab (List.append_inj he (by rw [hav.1, hbv.1])).1

lemma generate_length (n : ℕ) : (generate_ternary_numbers n).length = 3 ^ n := by
  induction n with
  | zero => rfl
  | succ m ih =>
    rw [generate_ternary_numbers, pow_succ]
    have : ∀ L : List DStr,
        (L.flatMap fun x => [x ++ [0], x ++ [1], x ++ [2]]).length = L.length * 3 := by
      intro L
      induction L with
      | nil => rfl
      | cons y ys ihy => simp only [List.flatMap_cons, List.length_append, ihy]; simp; ring
    rw [this, ih]

/-! ### The outer visited-set loop -/

/-- Main invariant of the `for number in ternary_numbers` loop: starting from
a forward-closed, duplicate-free visited set equal to the flattened cycle
list, the loop output is duplicate-free, valid, contains every processed and
every previously seen string, and every produced cycle is an orbit. -/
lemma cycles_aux_main {n : ℕ} {s : DStr} (hs : ValidT n s) :
    ∀ (rest : List DStr) (cycles : List (List DStr)) (seen : List DStr),
      (∀ x ∈ rest, ValidT n x) →
      cycles.flatten = seen →
      seen.Nodup →
      (∀ u ∈ seen, ValidT n u) →
      (∀ u ∈ seen, add_ternary u s ∈ seen) →
      (find_ternary_cycles_aux s rest cycles seen).flatten.Nodup ∧
      (∀ u ∈ (find_ternary_cycles_aux s rest cycles seen).flatten, ValidT n u) ∧
      (∀ x, (x ∈ seen ∨ x ∈ rest) → x ∈ (find_ternary_cycles_aux s rest cycles seen).flatten) ∧
      (∀ cyc ∈ find_ternary_cycles_aux s rest cycles seen,
        cyc ∈ cycles ∨ ∃ x, ValidT n x ∧ cyc = find_cycle x s) := by
  intro rest
  induction rest with
  | nil =>
    intro cycles seen hrest hflat hnd hv hcl
    rw [find_ternary_cycles_aux, hflat]
    refine ⟨hnd, hv, ?_, fun cyc hc => Or.inl hc⟩
    intro x h
    rcases h with h | h
    · exact h
    · cases h
  | cons x rest ih =>
    intro cycles seen hrest hflat hnd hv hcl
    have hx : ValidT n x := hrest x (by simp)
    by_cases hmem : x ∈ seen
    · rw [find_ternary_cycles_aux, if_pos hmem]
      obtain ⟨c1, c2, c3, c4⟩ := ih cycles seen (fun y hy => hrest y (by simp [hy]))
        hflat hnd hv hcl
      refine ⟨c1, c2, ?_, c4⟩
      intro y hy
      apply c3
      rcases hy with hy | hy
      · exact Or.inl hy
      · rcases List.mem_cons.mp hy with rfl | hy
        · exact Or.inl hmem
        · exact Or.inr hy
    · rw [find_ternary_cycles_aux, if_neg hmem]
      have hcv := find_cycle_valid hx hs
      have hcnd := find_cycle_nodup hx hs
      have hccl := find_cycle_closed hx hs
      have hdisj := find_cycle_disjoint_seen hx hs hcl hmem
      have hstart := find_cycle_start_mem hx hs
      obtain ⟨c1, c2, c3, c4⟩ := ih (cycles ++ [find_cycle x s]) (seen ++ find_cycle x s)
        (fun y hy => hrest y (by simp [hy]))
        (by rw [List.flatten_append, hflat]; simp)
        (hnd.append hcnd fun a ha hac => hdisj a hac ha)
        (fun u hu => by
          rcases List.mem_append.mp hu with h | h
          · exact hv u h
          · exact hcv u h)
        (fun u hu => by
          rcases List.mem_append.mp hu with h | h
          · exact List.mem_append.mpr (Or.inl (hcl u h))
          · exact List.mem_append.mpr (Or.inr (hccl u h)))
      refine ⟨c1, c2, ?_, ?_⟩
      · intro y hy
        apply c3
        rcases hy with hy | hy
        · exact Or.inl (List.mem_append.mpr (Or.inl hy))
        · rcases List.mem_cons.mp hy with rfl | hy
          · exact Or.inl (List.mem_append.mpr (Or.inr hstart))
          · exact Or.inr hy
      · intro cyc hc
        rcases c4 cyc hc with h | h
        · rcases List.mem_append.mp h with h | h
          · exact Or.inl h
          · rw [List.mem_singleton] at h
            exact Or.inr ⟨x, hx, h⟩
        · exact Or.inr h

/-- Summary of the cycle decomposition: the flattened cycle list is a
permutation of the full universe, and every cycle is an orbit walk. -/
lemma find_ternary_cycles_spec {n : ℕ} {s : DStr} (hs : ValidT n s) :
    List.Perm (find_ternary_cycles n s).flatten (generate_ternary_numbers n) ∧
    (∀ cyc ∈ find_ternary_cycles n s, ∃ x, ValidT n x ∧ cyc = find_cycle x s) := by
  obtain ⟨c1, c2, c3, c4⟩ := cycles_aux_main hs (generate_ternary_numbers n) [] []
    (fun x hx => generate_mem.mp hx) rfl List.nodup_nil (by simp) (by simp)
  rw [find_ternary_cycles]
  refine ⟨List.Subperm.antisymm ?_ ?_, ?_⟩
  · exact (List.Nodup.subperm c1) fun u hu => generate_mem.mpr (c2 u hu)
  · exact (List.Nodup.subperm (generate_nodup n)) fun x hx => c3 x (Or.inr hx)
  · intro cyc hc
    rcases c4 cyc hc with h | h
    · cases h
    · exact h

/-- With the all-zero secret every orbit is a self-loop, so the loop emits one
singleton cycle per enumerated string. -/
lemma cycles_aux_zero {n : ℕ} :
    ∀ (L : List DStr) (cycles : List (List DStr)) (seen : List DStr),
      (∀ x ∈ L, ValidT n x) → (∀ x ∈ L, x ∉ seen) → L.Nodup →
      find_ternary_cycles_aux (List.replicate n 0) L cycles seen
        = cycles ++ L.map (fun x => [x]) := by
  intro L
  induction L with
  | nil => intro cycles seen _ _ _; simp [find_ternary_cycles_aux]
  | cons x rest ih =>
    intro cycles seen hval hdis hnd
    have hx : ValidT n x := hval x (by simp)
    rw [find_ternary_cycles_aux, if_neg (hdis x (by simp)), find_cycle_zero hx]
    rw [ih (cycles ++ [[x]]) (seen ++ [x]) (fun y hy => hval y (by simp [hy]))
      (fun y hy => by
        intro hmem
        rcases List.mem_append.mp hmem with h | h
        · exact hdis y (by simp [hy]) h
        · rw [List.mem_singleton] at h
          subst h
          exact (List.nodup_cons.mp hnd).1 hy)
      (List.nodup_cons.mp hnd).2]
    simp

/-- C4.  The cycle decomposition partitions the full `3 ^ n`-string universe
(for every length-`n` ternary secret), and for the all-zero secret it yields
exactly `3 ^ n` singleton cycles. -/
theorem claim_C4_cycle_partition (n : ℕ) (hn1 : 1 ≤ n) (hn6 : n ≤ 6) (s : DStr)
    (hs : s.length = n) (hd : ∀ d ∈ s, d < 3) :
    List.Perm (find_ternary_cycles n s).flatten (generate_ternary_numbers n) ∧
    (s = List.replicate n 0 →
      find_ternary_cycles n s = (generate_ternary_numbers n).map (fun x => [x]) ∧
      (find_ternary_cycles n s).length = 3 ^ n) := by
  refine ⟨(find_ternary_cycles_spec ⟨hs, hd⟩).1, ?_⟩
  rintro rfl
  have hzero : find_ternary_cycles n (List.replicate n 0)
      = (generate_ternary_numbers n).map (fun x => [x]) := by
    rw [find_ternary_cycles]
    rw [cycles_aux_zero (generate_ternary_numbers n) [] []
      (fun x hx => generate_mem.mp hx) (by simp) (generate_nodup n)]
    simp
  exact ⟨hzero, by rw [hzero, List.length_map, generate_length]⟩

/-- Witness for C4 at `n = 1`, `s = "2"`. -/
theorem claim_C4_cycle_partition_witness :
    List.Perm (find_ternary_cycles 1 [2]).flatten (generate_ternary_numbers 1) ∧
    ([2] = List.replicate 1 0 →
      find_ternary_cycles 1 [2] = (generate_ternary_numbers 1).map (fun x => [x]) ∧
      (find_ternary_cycles 1 [2]).length = 3 ^ 1) :=
  claim_C4_cycle_partition 1 (by norm_num) (by norm_num) [2] rfl (by decide)

/-- C10.  For a non-zero ternary secret every cycle has length exactly 3 and
there are exactly `3 ^ (n - 1)` cycles (the `3 ** n / 3` ancilla sizing used
by the circuit builder). -/
theorem claim_C10_cycle_count (n : ℕ) (hn : 1 ≤ n) (s : DStr) (hs : s.length = n)
    (hd : ∀ d ∈ s, d < 3) (hnz : s ≠ List.replicate n 0) :
    (∀ cyc ∈ find_ternary_cycles n s, cyc.length = 3) ∧
    (find_ternary_cycles n s).length = 3 ^ (n - 1) := by
  obtain ⟨hperm, horb⟩ := find_ternary_cycles_spec (n := n) ⟨hs, hd⟩
  have hlen3 : ∀ cyc ∈ find_ternary_cycles n s, cyc.length = 3 := by
    intro cyc hc
    obtain ⟨x, hx, rfl⟩ := horb cyc hc
    rw [find_cycle_nonzero hx ⟨hs, hd⟩ hnz]
    rfl
  refine ⟨hlen3, ?_⟩
  have hsum : ∀ (L : List (List DStr)), (∀ c ∈ L, c.length = 3) →
      L.flatten.length = 3 * L.length := by
    intro L
    induction L with
    | nil => intro _; rfl
    | cons c cs ihc =>
      intro h
      rw [List.flatten_cons, List.length_append, ihc (fun c' hc' => h c' (by simp [hc'])),
        h c (by simp), List.length_cons]
      ring
  have h1 : (find_ternary_cycles n s).flatten.length = 3 ^ n := by
    rw [hperm.length_eq, generate_length]
  rw [hsum _ hlen3] at h1
  have h2 : 3 ^ n = 3 * 3 ^ (n - 1) := by
    calc 3 ^ n = 3 ^ (1 + (n - 1)) := by rw [show 1 + (n - 1) = n by omega]
    _ = 3 * 3 ^ (n - 1) := by rw [pow_add, pow_one]
  omega

/-- Witness for C10 at `n = 2`, `s = "01"`. -/
theorem claim_C10_cycle_count_witness :
    (∀ cyc ∈ find_ternary_cycles 2 [0, 1], cyc.length = 3) ∧
    (find_ternary_cycles 2 [0, 1]).length = 3 ^ (2 - 1) :=
  claim_C10_cycle_count 2 (by norm_num) [0, 1] rfl (by decide) (by decide)

/-! ## Claims about the literal example, return shapes, and bucket order -/

/-- C5 counterexample.  On the literal instance `n = 3`, `p = 2`,
`v1 = [1,1,0]`, `v2 = [0,1,1]`, the binary extraction does *not* return
`"101"`: both vectors fail `v · 101 ≡ 0 (mod 2)` (the dot products are 1),
and the unique non-zero vector orthogonal to both is `"111"`. -/
theorem claim_C5_counterexample :
    solve_equation [[1, 1, 0], [0, 1, 1]] ≠ [1, 0, 1] ∧
    (1 * 1 + 1 * 0 + 0 * 1) % 2 = 1 ∧ (0 * 1 + 1 * 0 + 1 * 1) % 2 = 1 := by decide

/-- C5 amended.  On the literal instance the binary extraction returns
`"111"`, the unique non-zero binary vector orthogonal to `v1` and `v2`. -/
theorem claim_C5_literal_example :
    solve_equation [[1, 1, 0], [0, 1, 1]] = [1, 1, 1] ∧
    (1 * 1 + 1 * 1 + 0 * 1) % 2 = 0 ∧ (0 * 1 + 1 * 1 + 1 * 1) % 2 = 0 := by decide

/-- C7.  The degenerate ternary path returns the 2-tuple `('0' * n, 0)`
(`Sum.inl`) while the non-degenerate path returns a bare string (`Sum.inr`)
— a differently-shaped result, contradicting the claim (and the function's
own docstring, which promises a `(recovered_secret, found)` pair on every
path).  The binary path does return the all-zero string uniformly. -/
theorem claim_C7_degenerate_shape :
    recover_secret_string_3d 2 [] = Sum.inl ([0, 0], 0) ∧
    recover_secret_string_3d 2 [[0, 0, 0, 0]] = Sum.inl ([0, 0], 0) ∧
    recover_secret_string_3d 2 [[0, 1, 0, 1]] = Sum.inr [1, 2] ∧
    run_and_analyze_binary 2 [] = [0, 0] ∧
    run_and_analyze_binary 2 [[0, 0]] = [0, 0] := by decide

/-! ### C9: which bucket answers which component -/

/-- The samples whose ancilla (first) bit is `1`, truncated to their tails —
the claim's "bucket 1". -/
def ancillaBucket1 (samples : List DStr) : List DStr :=
  (samples.filter fun it => it.headI = 1).map List.tail

/-- The samples whose ancilla (first) bit is `0` (i.e. not `1`), truncated to
their tails — the claim's "bucket 0". -/
def ancillaBucket0 (samples : List DStr) : List DStr :=
  (samples.filter fun it => ¬ it.headI = 1).map List.tail

/-- C9 counterexample.  On a pooled sample set whose two buckets determine
different secrets, the pair returned is
`(secret from bucket 0, secret from bucket 1)`, not the claimed
`(secret from bucket 1, secret from bucket 0)`. -/
theorem claim_C9_counterexample :
    multi_run_and_analyze 2 [[1, 1, 0], [0, 0, 1]] = ([1, 0], [0, 1]) ∧
    (recover_secret_string 2 (ancillaBucket1 [[1, 1, 0], [0, 0, 1]]),
      recover_secret_string 2 (ancillaBucket0 [[1, 1, 0], [0, 0, 1]])) = ([0, 1], [1, 0]) ∧
    ([1, 0], [0, 1]) ≠ (([0, 1], [1, 0]) : DStr × DStr) := by decide

/-- C9 amended.  The multi-secret disambiguation returns
`(secret from bucket 0, secret from bucket 1)` — the bucket tagged `1`
answers the *second* component. -/
theorem claim_C9_bucket_order (n : ℕ) (samples : List DStr) :
    multi_run_and_analyze n samples =
      (recover_secret_string n (ancillaBucket0 samples),
        recover_secret_string n (ancillaBucket1 samples)) := rfl

/-! ### C2: which rows the extractors inspect -/

/-- The `R.find?`-style specification of the ternary row scan: the first row
whose first `k` entries vanish supplies the solution. -/
def firstRowRuleSpec (R : Mat (ZMod 3)) (k n : ℕ) : DStr :=
  match R.find? (fun rw => (rw.take k).all fun x => x = 0) with
  | some rw => (rw.drop k).map ZMod.val
  | none => List.replicate n 0

lemma findFirstSolution_foldl_true (k : ℕ) (R : Mat (ZMod 3)) (v : DStr) :
    R.foldl
      (fun acc rw =>
        if (rw.take k).all (fun x => x = 0) then
          if acc.1 then acc else (true, (rw.drop k).map ZMod.val)
        else acc)
      (true, v) = (true, v) := by
  induction R with
  | nil => rfl
  | cons rw rest ih =>
    rw [List.foldl_cons]
    by_cases h : (rw.take k).all fun x => x = 0
    · rw [if_pos h, if_pos rfl, ih]
    · rw [if_neg h, ih]

/-- C2 counterexample.  A reduced matrix (arising from
`recover_secret_string_3d 3 {"000001"}`, i.e. the single equation `001`
over `Z_3`) whose second row already has an all-zero first block: the ternary
extraction returns that earlier row's identity-block entries `100`, not the
last row's `010` as the last-row-only policy of the claim dictates. -/
theorem claim_C2_counterexample :
    findFirstSolution [[1, 0, 0, 1], [0, 1, 0, 0], [0, 0, 1, 0]] 1 3 = [1, 0, 0] ∧
    extractLast (p := 3) [[1, 0, 0, 1], [0, 1, 0, 0], [0, 0, 1, 0]] 1 3 = [0, 1, 0] ∧
    (rrefF (pyModInv 3) 3 4 (mkAugmented (transposeL [[0, 0, 1]] 1 3))).1
      = [[1, 0, 0, 1], [0, 1, 0, 0], [0, 0, 1, 0]] ∧
    recover_secret_string_3d 3 [[0, 0, 0, 0, 0, 1]] = Sum.inr [1, 0, 0] := by decide

/-- C2 amended.  The binary extractor inspects only the last row (two reduced
matrices agreeing on the last row yield identical results); the ternary
extractor scans every row top-down and returns the identity-block entries of
the *first* row whose first-`k`-column block vanishes mod 3, defaulting to the
all-zero string. -/
theorem claim_C2_row_policy :
    (∀ (R R' : Mat (ZMod 2)) (k n : ℕ), rowOf R (n - 1) = rowOf R' (n - 1) →
      extractLast R k n = extractLast R' k n) ∧
    (∀ (R : Mat (ZMod 3)) (k n : ℕ), findFirstSolution R k n = firstRowRuleSpec R k n) := by
  constructor
  · intro R R' k n h
    rw [extractLast, extractLast, h]
  · intro R k n
    rw [findFirstSolution, firstRowRuleSpec]
    induction R with
    | nil => rfl
    | cons rw rest ih =>
      by_cases h : ((rw.take k).all fun x => x = 0) = true
      · rw [List.foldl_cons, List.find?_cons, if_pos h, if_neg (by simp), h]
        simp only [cond_true]
        rw [findFirstSolution_foldl_true]
      · have hb : ((rw.take k).all fun x => x = 0) = false := by simpa using h
        rw [List.foldl_cons, List.find?_cons, if_neg h, hb]
        simpa using ih

/-- Witness for the amended C2 at concrete matrices. -/
theorem claim_C2_row_policy_witness :
    extractLast (p := 2) [[1, 1, 0], [0, 0, 1]] 1 2 = extractLast (p := 2) [[0, 1, 1], [0, 0, 1]] 1 2 ∧
    findFirstSolution [[1, 0, 0, 1], [0, 1, 0, 0], [0, 0, 1, 0]] 1 3 =
      firstRowRuleSpec [[1, 0, 0, 1], [0, 1, 0, 0], [0, 0, 1, 0]] 1 3 :=
  ⟨claim_C2_row_policy.1 [[1, 1, 0], [0, 0, 1]] [[0, 1, 1], [0, 0, 1]] 1 2 rfl,
    claim_C2_row_policy.2 [[1, 0, 0, 1], [0, 1, 0, 0], [0, 0, 1, 0]] 1 3⟩

/-- C3 counterexample.  For `n = 2`, secret `s = "21"` and the single
independent constraint `v = (1,1)` (with `v · s = 3 ≡ 0 (mod 3)`), the
ternary extraction returns `"12" = 2·s (mod 3)`, not `s` itself: the
reduction normalises the null-space row to have leading entry 1. -/
theorem claim_C3_counterexample :
    recover_secret_string_3d 2 [[0, 1, 0, 1]] = Sum.inr [1, 2] ∧
    ([1, 2] : DStr) ≠ [2, 1] ∧ (1 * 2 + 1 * 1) % 3 = 0 := by decide

/-! ## Structure of the row reduction

Invariant-based analysis of `rrefF`, used for the idempotence, pivot-policy
and round-trip claims. -/

/-- `M` is a `rows × cols` rectangular matrix. -/
def Rect (rows cols : ℕ) (M : Mat F) : Prop :=
  M.length = rows ∧ ∀ i, i < rows → (rowOf M i).length = cols

lemma rowOf_nil_of_ge {M : Mat F} {i : ℕ} (h : M.length ≤ i) : rowOf M i = [] := by
  rw [rowOf, List.getD_eq_getElem?_getD, List.getElem?_eq_none (by simpa using h)]
  rfl

lemma rowOf_set_self {M : Mat F} {i : ℕ} (rw : List F) (h : i < M.length) :
    rowOf (M.set i rw) i = rw := by
  rw [rowOf, List.getD_eq_getElem?_getD, List.getElem?_set_eq h]
  rfl

lemma rowOf_set_ne (M : Mat F) {i j : ℕ} (rw : List F) (h : i ≠ j) :
    rowOf (M.set i rw) j = rowOf M j := by
  rw [rowOf, rowOf, List.getD_eq_getElem?_getD, List.getD_eq_getElem?_getD,
    List.getElem?_set_ne h]

lemma rowOf_set (M : Mat F) (i j : ℕ) (rw : List F) :
    rowOf (M.set i rw) j = if j = i ∧ i < M.length then rw else rowOf M j := by
  by_cases hij : j = i
  · subst hij
    by_cases hlen : j < M.length
    · rw [rowOf_set_self rw hlen, if_pos ⟨rfl, hlen⟩]
    · rw [if_neg (fun h => hlen h.2), List.set_eq_of_length_le (by omega)]
  · rw [rowOf_set_ne M rw (fun h => hij h.symm), if_neg (fun h => hij h.1)]

lemma map_mul_getD (k : F) (l : List F) (j : ℕ) :
    (l.map fun x => k * x).getD j 0 = k * l.getD j 0 := by
  rcases lt_or_ge j l.length with h | h
  · rw [List.getD_eq_getElem _ _ (by simpa using h), List.getD_eq_getElem _ _ h,
      List.getElem_map]
  · rw [List.getD_eq_default _ _ (by simpa using h), List.getD_eq_default _ _ h, mul_zero]

lemma subRow_length (a : List F) (m : F) (b : List F) (h : a.length = b.length) :
    (subRow a m b).length = a.length := by
  rw [subRow, List.length_zipWith]
  omega

lemma subRow_getD {a b : List F} (m : F) (h : a.length = b.length) (j : ℕ) :
    (subRow a m b).getD j 0 = a.getD j 0 - m * b.getD j 0 := by
  rcases lt_or_ge j a.length with hj | hj
  · rw [List.getD_eq_getElem _ _ (by rw [subRow_length a m b h]; exact hj),
      List.getD_eq_getElem _ _ hj, List.getD_eq_getElem _ _ (by omega)]
    simp only [subRow]
    rw [List.getElem_zipWith]
  · rw [List.getD_eq_default _ _ (by rw [subRow_length a m b h]; exact hj),
      List.getD_eq_default _ _ hj, List.getD_eq_default _ _ (by omega), mul_zero, sub_zero]

/-! ### Row swap -/

lemma length_rowSwap (M : Mat F) (i j : ℕ) : (rowSwap M i j).length = M.length := by
  simp [rowSwap]

lemma rowOf_rowSwap (M : Mat F) {i j : ℕ} (hi : i < M.length) (hj : j < M.length) (l : ℕ) :
    rowOf (rowSwap M i j) l =
      if l = j then rowOf M i else if l = i then rowOf M j else rowOf M l := by
  rw [rowSwap]
  by_cases hlj : l = j
  · subst hlj
    rw [if_pos rfl, rowOf_set_self _ (by simpa using hj)]
  · rw [if_neg hlj, rowOf_set_ne _ _ (fun h => hlj h.symm)]
    by_cases hli : l = i
    · subst hli
      rw [if_pos rfl, rowOf_set_self _ hi]
    · rw [if_neg hli, rowOf_set_ne _ _ (fun h => hli h.symm)]

lemma rect_rowSwap {rows cols : ℕ} {M : Mat F} (hM : Rect rows cols M) {i j : ℕ}
    (hi : i < rows) (hj : j < rows) : Rect rows cols (rowSwap M i j) := by
  refine ⟨by rw [length_rowSwap, hM.1], ?_⟩
  intro l hl
  rw [rowOf_rowSwap M (hM.1 ▸ hi) (hM.1 ▸ hj) l]
  split
  · exact hM.2 i hi
  · split
    · exact hM.2 j hj
    · exact hM.2 l hl

/-! ### Row scaling -/

lemma length_scaleRow (M : Mat F) (r : ℕ) (k : F) : (scaleRow M r k).length = M.length := by
  simp [scaleRow]

lemma rowOf_scaleRow_ne (M : Mat F) {r i : ℕ} (k : F) (h : i ≠ r) :
    rowOf (scaleRow M r k) i = rowOf M i :=
  rowOf_set_ne M _ (fun hEq => h hEq.symm)

lemma rowOf_scaleRow_self {M : Mat F} {r : ℕ} (k : F) (h : r < M.length) :
    rowOf (scaleRow M r k) r = (rowOf M r).map fun x => k * x :=
  rowOf_set_self _ h

lemma entry_def (M : Mat F) (i j : ℕ) : entry M i j = (rowOf M i).getD j 0 := rfl

lemma entry_scaleRow_self {M : Mat F} {r : ℕ} (k : F) (h : r < M.length) (j : ℕ) :
    entry (scaleRow M r k) r j = k * entry M r j := by
  rw [entry_def, rowOf_scaleRow_self k h, map_mul_getD, ← entry_def]

lemma rect_scaleRow {rows cols : ℕ} {M : Mat F} (hM : Rect rows cols M) (r : ℕ) (k : F) :
    Rect rows cols (scaleRow M r k) := by
  refine ⟨by rw [length_scaleRow, hM.1], ?_⟩
  intro l hl
  by_cases h : l = r
  · subst h
    rw [rowOf_scaleRow_self k (hM.1 ▸ hl), List.length_map]
    exact hM.2 l hl
  · rw [rowOf_scaleRow_ne M k h]
    exact hM.2 l hl

/-! ### Elimination loop -/

lemma rowOf_elimStep_ne (M : Mat F) (r c ri : ℕ) {i : ℕ} (h : i ≠ ri) :
    rowOf (elimStep M r c ri) i = rowOf M i := by
  rw [elimStep]
  split
  · rfl
  · split
    · rfl
    · exact rowOf_set_ne M _ (fun hEq => h hEq.symm)

lemma rowOf_elimStep_self (M : Mat F) (r c ri : ℕ) (h : ri < M.length) :
    rowOf (elimStep M r c ri) ri =
      if ri = r then rowOf M ri
      else if entry M ri c = 0 then rowOf M ri
      else subRow (rowOf M ri) (entry M ri c) (rowOf M r) := by
  rw [elimStep]
  by_cases h1 : ri = r
  · rw [if_pos h1, if_pos h1]
  · rw [if_neg h1, if_neg h1]
    by_cases h2 : entry M ri c = 0
    · rw [if_pos h2, if_pos h2]
    · rw [if_neg h2, if_neg h2, rowOf_set_self _ h]

lemma rowOf_elimStep_pivotRow (M : Mat F) (r c ri : ℕ) :
    rowOf (elimStep M r c ri) r = rowOf M r := by
  rcases eq_or_ne r ri with rfl | h
  · rw [elimStep, if_pos rfl]
  · exact rowOf_elimStep_ne M r c ri h

lemma length_elimStep (M : Mat F) (r c ri : ℕ) : (elimStep M r c ri).length = M.length := by
  rw [elimStep]
  split
  · rfl
  · split
    · rfl
    · simp

lemma length_elimAux (r c : ℕ) :
    ∀ (fuel start : ℕ) (M : Mat F), (elimAux r c fuel start M).length = M.length := by
  intro fuel
  induction fuel with
  | zero => intro start M; rfl
  | succ k ih => intro start M; rw [elimAux, ih, length_elimStep]

lemma rowOf_elimAux_pivot (r c : ℕ) :
    ∀ (fuel start : ℕ) (M : Mat F), rowOf (elimAux r c fuel start M) r = rowOf M r := by
  intro fuel
  induction fuel with
  | zero => intro start M; rfl
  | succ k ih =>
    intro start M
    rw [elimAux, ih, rowOf_elimStep_pivotRow]

lemma rowOf_elimAux_lt (r c : ℕ) :
    ∀ (fuel start : ℕ) (M : Mat F) (i : ℕ), i < start →
      rowOf (elimAux r c fuel start M) i = rowOf M i := by
  intro fuel
  induction fuel with
  | zero => intro start M i _; rfl
  | succ k ih =>
    intro start M i hi
    rw [elimAux, ih _ _ _ (by omega), rowOf_elimStep_ne M r c start (by omega)]

/-- Effect of the elimination loop on a non-pivot row in its range. -/
lemma rowOf_elimAux_in (r c : ℕ) :
    ∀ (fuel start : ℕ) (M : Mat F) (i : ℕ), i ≠ r → start ≤ i → i < start + fuel →
      i < M.length →
      rowOf (elimAux r c fuel start M) i =
        if entry M i c = 0 then rowOf M i
        else subRow (rowOf M i) (entry M i c) (rowOf M r) := by
  intro fuel
  induction fuel with
  | zero => intro start M i _ h1 h2; omega
  | succ k ih =>
    intro start M i hir h1 h2 hlen
    by_cases hstart : i = start
    · subst hstart
      rw [elimAux, rowOf_elimAux_lt r c k (i + 1) _ i (by omega),
        rowOf_elimStep_self M r c i hlen, if_neg hir]
    · rw [elimAux, ih (start + 1) _ i hir (by omega) (by omega) (by rwa [length_elimStep])]
      rw [rowOf_elimStep_ne M r c start hstart,
        show entry (elimStep M r c start) i c = entry M i c by
          rw [entry_def, entry_def, rowOf_elimStep_ne M r c start hstart],
        rowOf_elimStep_pivotRow M r c start]

lemma rowOf_eliminate_pivot (M : Mat F) (r c rows : ℕ) :
    rowOf (eliminate M r c rows) r = rowOf M r :=
  rowOf_elimAux_pivot r c rows 0 M

lemma rowOf_eliminate_ne {M : Mat F} {r c rows i : ℕ} (hir : i ≠ r) (hi : i < rows)
    (hlen : M.length = rows) :
    rowOf (eliminate M r c rows) i =
      if entry M i c = 0 then rowOf M i
      else subRow (rowOf M i) (entry M i c) (rowOf M r) :=
  rowOf_elimAux_in r c rows 0 M i hir (by omega) (by omega) (by omega)

lemma rowOf_eliminate_ge {M : Mat F} {r c rows i : ℕ} (hi : rows ≤ i) (hlen : M.length = rows) :
    rowOf (eliminate M r c rows) i = rowOf M i := by
  rw [eliminate]
  rcases eq_or_ne i r with rfl | hir
  · exact rowOf_elimAux_pivot _ _ _ _ _
  · rw [rowOf_nil_of_ge (by rw [length_elimAux]; omega), rowOf_nil_of_ge (by omega)]

lemma length_eliminate (M : Mat F) (r c rows : ℕ) :
    (eliminate M r c rows).length = M.length :=
  length_elimAux r c rows 0 M

lemma rect_eliminate {rows cols : ℕ} {M : Mat F} (hM : Rect rows cols M) (r c : ℕ)
    (hr : r < rows) : Rect rows cols (eliminate M r c rows) := by
  refine ⟨by rw [length_eliminate, hM.1], ?_⟩
  intro i hi
  rcases eq_or_ne i r with rfl | hir
  · rw [rowOf_eliminate_pivot]
    exact hM.2 i hi
  · rw [rowOf_eliminate_ne hir hi hM.1]
    split
    · exact hM.2 i hi
    · rw [subRow_length _ _ _ (by rw [hM.2 i hi, hM.2 r hr])]
      exact hM.2 i hi

/-! ### Pivot search -/

lemma findPivotAux_none {M : Mat F} {c : ℕ} :
    ∀ {fuel start : ℕ}, findPivotAux M c fuel start = none →
      ∀ i, start ≤ i → i < start + fuel → entry M i c = 0 := by
  intro fuel
  induction fuel with
  | zero => intro start _ i h1 h2; omega
  | succ k ih =>
    intro start hnone i h1 h2
    rw [findPivotAux] at hnone
    by_cases hc : entry M start c ≠ 0
    · rw [if_pos hc] at hnone
      cases hnone
    · rw [if_neg hc] at hnone
      push_neg at hc
      rcases eq_or_ne i start with rfl | hne
      · exact hc
      · exact ih hnone i (by omega) (by omega)

lemma findPivotAux_some {M : Mat F} {c : ℕ} :
    ∀ {fuel start pr : ℕ}, findPivotAux M c fuel start = some pr →
      start ≤ pr ∧ pr < start + fuel ∧ entry M pr c ≠ 0 ∧
        ∀ i, start ≤ i → i < pr → entry M i c = 0 := by
  intro fuel
  induction fuel with
  | zero => intro start pr h; cases h
  | succ k ih =>
    intro start pr hsome
    rw [findPivotAux] at hsome
    by_cases hc : entry M start c ≠ 0
    · rw [if_pos hc] at hsome
      cases hsome
      refine ⟨le_refl _, by omega, hc, ?_⟩
      intro i h1 h2; omega
    · rw [if_neg hc] at hsome
      push_neg at hc
      obtain ⟨e1, e2, e3, e4⟩ := ih hsome
      refine ⟨by omega, by omega, e3, ?_⟩
      intro i h1 h2
      rcases eq_or_ne i start with rfl | hne
      · exact hc
      · exact e4 i (by omega) h2

/-! ### Loop invariants -/

/-- The pivot structure: row `i` has a `1` at its pivot column `pcs[i]`,
every other row is `0` there, and row `i` vanishes left of its pivot. -/
def PivotsAt (M : Mat F) (rows : ℕ) (pcs : List ℕ) : Prop :=
  ∀ i, (h : i < pcs.length) →
    entry M i (pcs.get ⟨i, h⟩) = 1 ∧
    (∀ l, l < rows → l ≠ i → entry M l (pcs.get ⟨i, h⟩) = 0) ∧
    ∀ j, j < pcs.get ⟨i, h⟩ → entry M i j = 0

/-- Rows at or below the working row vanish on all processed columns. -/
def BelowZ (M : Mat F) (r c rows : ℕ) : Prop :=
  ∀ i, r ≤ i → i < rows → ∀ j, j < c → entry M i j = 0

/-- The invariant of the column loop of `rrefAux` before processing
column `c` with current rank `r` and recorded pivot columns `pcs`. -/
def LoopInv (rows cols : ℕ) (M : Mat F) (r c : ℕ) (pcs : List ℕ) : Prop :=
  Rect rows cols M ∧ pcs.length = r ∧ r ≤ rows ∧ r ≤ c ∧ (∀ p ∈ pcs, p < c) ∧
  pcs.Pairwise (· < ·) ∧ PivotsAt M rows pcs ∧ BelowZ M r c rows

/-- Full reduced-row-echelon normal form with pivot columns `pcs`. -/
def RREFForm (rows cols : ℕ) (M : Mat F) (pcs : List ℕ) : Prop :=
  Rect rows cols M ∧ pcs.Pairwise (· < ·) ∧ (∀ p ∈ pcs, p < cols) ∧
  pcs.length ≤ rows ∧ PivotsAt M rows pcs ∧
  ∀ i, pcs.length ≤ i → i < rows → ∀ j, j < cols → entry M i j = 0

lemma rrefAux_succ_none (vinv : F → F) {rows fuel c r : ℕ} {M : Mat F} {pcs : List ℕ}
    (h : findPivotAux M c (rows - r) r = none) :
    rrefAux vinv rows (fuel + 1) c r M pcs = rrefAux vinv rows fuel (c + 1) r M pcs := by
  rw [rrefAux, h]

lemma rrefAux_succ_some (vinv : F → F) {rows fuel c r : ℕ} {M : Mat F} {pcs : List ℕ}
    {pr : ℕ} (h : findPivotAux M c (rows - r) r = some pr) :
    rrefAux vinv rows (fuel + 1) c r M pcs =
      (let M1 := if pr ≠ r then rowSwap M pr r else M
       let M2 := if entry M1 r c ≠ 1 then scaleRow M1 r (vinv (entry M1 r c)) else M1
       let M3 := eliminate M2 r c rows
       if r + 1 = rows then (M3, pcs ++ [c])
       else rrefAux vinv rows fuel (c + 1) (r + 1) M3 (pcs ++ [c])) := by
  rw [rrefAux, h]

lemma rect_elimStep {rows cols : ℕ} {M : Mat F} (hM : Rect rows cols M) (r c ri : ℕ)
    (hr : r < rows) : Rect rows cols (elimStep M r c ri) := by
  refine ⟨by rw [length_elimStep, hM.1], ?_⟩
  intro i hi
  rcases eq_or_ne i ri with rfl | hne
  · rw [rowOf_elimStep_self M r c i (by rw [hM.1]; exact hi)]
    split
    · exact hM.2 i hi
    · split
      · exact hM.2 i hi
      · rw [subRow_length _ _ _ (by rw [hM.2 i hi, hM.2 r hr])]
        exact hM.2 i hi
  · rw [rowOf_elimStep_ne M r c ri hne]
    exact hM.2 i hi

/-- Uniform algebraic description of the elimination result on non-pivot
rows: subtract `entry · c` times the (already scaled) pivot row. -/
lemma entry_eliminate_ne {rows cols : ℕ} {M : Mat F} (hM : Rect rows cols M)
    {r c i : ℕ} (hr : r < rows) (hir : i ≠ r) (hi : i < rows) (j : ℕ) :
    entry (eliminate M r c rows) i j = entry M i j - entry M i c * entry M r j := by
  rw [entry_def, rowOf_eliminate_ne hir hi hM.1]
  by_cases h : entry M i c = 0
  · rw [if_pos h, h, zero_mul, sub_zero, entry_def]
  · rw [if_neg h, subRow_getD _ (by rw [hM.2 i hi, hM.2 r hr]), ← entry_def, ← entry_def]

lemma entry_eliminate_pivot (M : Mat F) (r c rows j : ℕ) :
    entry (eliminate M r c rows) r j = entry M r j := by
  rw [entry_def, rowOf_eliminate_pivot, entry_def]

/-- One pivot step (swap up, normalise, eliminate) re-establishes the loop
invariant at rank `r + 1`, column `c + 1`, pivot list `pcs ++ [c]`. -/
lemma pivot_step_inv {rows cols : ℕ} (vinv : F → F)
    (hvinv : ∀ x : F, x ≠ 0 → vinv x * x = 1)
    {M : Mat F} {r c : ℕ} {pcs : List ℕ}
    (hinv : LoopInv rows cols M r c pcs) (hccols : c < cols)
    {pr : ℕ} (hfind : findPivotAux M c (rows - r) r = some pr) :
    LoopInv rows cols
      (eliminate
        (if entry (if pr ≠ r then rowSwap M pr r else M) r c ≠ 1 then
          scaleRow (if pr ≠ r then rowSwap M pr r else M) r
            (vinv (entry (if pr ≠ r then rowSwap M pr r else M) r c))
        else (if pr ≠ r then rowSwap M pr r else M)) r c rows)
      (r + 1) (c + 1) (pcs ++ [c]) := by
  obtain ⟨hrect, hlen, hrr, hrc, hpc, hpair, hpiv, hbz⟩ := hinv
  obtain ⟨hpr1, hpr2, hpr3, hpr4⟩ := findPivotAux_some hfind
  have hprrows : pr < rows := by omega
  have hrrows : r < rows := by omega
  set M1 := if pr ≠ r then rowSwap M pr r else M with hM1def
  have s1 : Rect rows cols M1 := by
    rw [hM1def]
    by_cases h : pr ≠ r
    · rw [if_pos h]; exact rect_rowSwap hrect hprrows hrrows
    · rw [if_neg h]; exact hrect
  have s2 : ∀ i, i < r → rowOf M1 i = rowOf M i := by
    intro i hi
    rw [hM1def]
    by_cases h : pr ≠ r
    · rw [if_pos h, rowOf_rowSwap M (by rw [hrect.1]; exact hprrows)
        (by rw [hrect.1]; exact hrrows), if_neg (by omega), if_neg (by omega)]
    · rw [if_neg h]
  have s3 : rowOf M1 r = rowOf M pr := by
    rw [hM1def]
    by_cases h : pr ≠ r
    · rw [if_pos h, rowOf_rowSwap M (by rw [hrect.1]; exact hprrows)
        (by rw [hrect.1]; exact hrrows), if_pos rfl]
    · push_neg at h
      rw [if_neg (not_not_intro h), h]
  have s4 : ∀ i, r ≤ i → i < rows → ∀ j, j < c → entry M1 i j = 0 := by
    intro i hi hirows j hj
    rw [hM1def]
    by_cases h : pr ≠ r
    · rw [entry_def, if_pos h, rowOf_rowSwap M (by rw [hrect.1]; exact hprrows)
        (by rw [hrect.1]; exact hrrows)]
      by_cases h1 : i = r
      · rw [if_pos h1, ← entry_def]
        exact hbz pr hpr1 hprrows j hj
      · rw [if_neg h1]
        by_cases h2 : i = pr
        · rw [if_pos h2, ← entry_def]
          exact hbz r le_rfl hrrows j hj
        · rw [if_neg h2, ← entry_def]
          exact hbz i hi hirows j hj
    · rw [if_neg h]
      exact hbz i hi hirows j hj
  have s5 : entry M1 r c ≠ 0 := by
    rw [entry_def, s3, ← entry_def]
    exact hpr3
  have s6 : PivotsAt M1 rows pcs := by
    intro i h
    have hir : i < r := by omega
    obtain ⟨p1, p2, p3⟩ := hpiv i h
    have hcic : pcs.get ⟨i, h⟩ < c := hpc _ (pcs.get_mem _ _)
    refine ⟨?_, ?_, ?_⟩
    · rw [entry_def, s2 i hir, ← entry_def]; exact p1
    · intro l hl hli
      rcases lt_or_ge l r with hlr | hlr
      · rw [entry_def, s2 l hlr, ← entry_def]; exact p2 l hl hli
      · exact s4 l hlr hl _ hcic
    · intro j hj
      rw [entry_def, s2 i hir, ← entry_def]; exact p3 j hj
  set M2 := if entry M1 r c ≠ 1 then scaleRow M1 r (vinv (entry M1 r c)) else M1 with hM2def
  have t1 : Rect rows cols M2 := by
    rw [hM2def]
    by_cases h : entry M1 r c ≠ 1
    · rw [if_pos h]; exact rect_scaleRow s1 r _
    · rw [if_neg h]; exact s1
  have t2 : ∀ i, i ≠ r → rowOf M2 i = rowOf M1 i := by
    intro i hi
    rw [hM2def]
    by_cases h : entry M1 r c ≠ 1
    · rw [if_pos h, rowOf_scaleRow_ne M1 _ hi]
    · rw [if_neg h]
  have t3 : entry M2 r c = 1 := by
    rw [hM2def]
    by_cases h : entry M1 r c ≠ 1
    · rw [if_pos h, entry_scaleRow_self _ (by rw [s1.1]; exact hrrows)]
      exact hvinv _ s5
    · rw [if_neg h]
      exact not_not.mp h
  have t4 : ∀ j, j < c → entry M2 r j = 0 := by
    intro j hj
    have hm1 : entry M1 r j = 0 := s4 r le_rfl hrrows j hj
    rw [hM2def]
    by_cases h : entry M1 r c ≠ 1
    · rw [if_pos h, entry_scaleRow_self _ (by rw [s1.1]; exact hrrows), hm1, mul_zero]
    · rw [if_neg h]; exact hm1
  have t5 : ∀ i, r ≤ i → i < rows → ∀ j, j < c → entry M2 i j = 0 := by
    intro i hi hirows j hj
    rcases eq_or_ne i r with rfl | hir
    · exact t4 j hj
    · rw [entry_def, t2 i hir, ← entry_def]
      exact s4 i hi hirows j hj
  have t6 : PivotsAt M2 rows pcs := by
    intro i h
    have hir : i < r := by omega
    obtain ⟨p1, p2, p3⟩ := s6 i h
    have hcic : pcs.get ⟨i, h⟩ < c := hpc _ (pcs.get_mem _ _)
    refine ⟨?_, ?_, ?_⟩
    · rw [entry_def, t2 i (by omega), ← entry_def]; exact p1
    · intro l hl hli
      rcases eq_or_ne l r with rfl | hlr
      · exact t4 _ hcic
      · rw [entry_def, t2 l hlr, ← entry_def]
        exact p2 l hl hli
    · intro j hj
      rw [entry_def, t2 i (by omega), ← entry_def]
      exact p3 j hj
  have u0 : Rect rows cols (eliminate M2 r c rows) := rect_eliminate t1 r c hrrows
  have uP : ∀ j, entry (eliminate M2 r c rows) r j = entry M2 r j :=
    fun j => entry_eliminate_pivot M2 r c rows j
  have uN : ∀ i, i ≠ r → i < rows → ∀ j,
      entry (eliminate M2 r c rows) i j = entry M2 i j - entry M2 i c * entry M2 r j :=
    fun i hir hi j => entry_eliminate_ne t1 hrrows hir hi j
  refine ⟨u0, by simp [hlen], by omega, by omega, ?_, ?_, ?_, ?_⟩
  · intro p hp
    rcases List.mem_append.mp hp with hp | hp
    · have := hpc p hp; omega
    · rw [List.mem_singleton] at hp; omega
  · rw [List.pairwise_append]
    refine ⟨hpair, by simp, ?_⟩
    intro a ha b hb
    rw [List.mem_singleton] at hb
    subst hb
    exact hpc a ha
  · -- pivot structure for pcs ++ [c]
    intro i h
    rcases lt_or_ge i pcs.length with hio | hio
    · have hget : (pcs ++ [c]).get ⟨i, h⟩ = pcs.get ⟨i, hio⟩ := by
        rw [List.get_eq_getElem, List.get_eq_getElem, List.getElem_append_left hio]
      obtain ⟨q1, q2, q3⟩ := t6 i hio
      have hcic : pcs.get ⟨i, hio⟩ < c := hpc _ (pcs.get_mem _ _)
      have hir : i ≠ r := by omega
      have hirows : i < rows := by omega
      refine ⟨?_, ?_, ?_⟩
      · rw [hget, uN i hir hirows, q1, t4 _ hcic, mul_zero, sub_zero]
      · intro l hl hli
        rw [hget]
        rcases eq_or_ne l r with rfl | hlr
        · rw [uP, t4 _ hcic]
        · rw [uN l hlr hl, q2 l hl hli, t4 _ hcic, mul_zero, sub_zero]
      · intro j hj
        rw [hget] at hj
        rw [uN i hir hirows, q3 j hj, t4 j (by omega), mul_zero, sub_zero]
    · have hieq : i = pcs.length := by
        rw [List.length_append, List.length_singleton] at h; omega
      have hget : (pcs ++ [c]).get ⟨i, h⟩ = c := by
        rw [List.get_eq_getElem, List.getElem_append_right hio]
        simp [hieq]
      have hirr : i = r := by omega
      subst hirr
      refine ⟨?_, ?_, ?_⟩
      · rw [hget, uP, t3]
      · intro l hl hli
        rw [hget, uN l hli hl, t3, mul_one, sub_self]
      · intro j hj
        rw [hget] at hj
        rw [uP, t4 j hj]
  · -- BelowZ at (r+1, c+1)
    intro i hi hirows j hj
    have hir : i ≠ r := by omega
    rw [uN i hir hirows]
    rcases lt_or_ge j c with hjc | hjc
    · rw [t5 i (by omega) hirows j hjc, t4 j hjc, mul_zero, sub_zero]
    · have hjc' : j = c := by omega
      subst hjc'
      rw [t3, mul_one, sub_self]

lemma Q_elimAux {rows cols : ℕ} (Q : Mat F → Prop)
    (hQelim : ∀ (M : Mat F) (r c ri : ℕ), r < rows → ri < rows → Rect rows cols M → Q M →
      Q (elimStep M r c ri))
    (r c : ℕ) (hr : r < rows) :
    ∀ (fuel start : ℕ) (M : Mat F), start + fuel ≤ rows → Rect rows cols M → Q M →
      Q (elimAux r c fuel start M) := by
  intro fuel
  induction fuel with
  | zero => intro start M _ _ hQ; exact hQ
  | succ k ih =>
    intro start M hb hrect hQ
    rw [elimAux]
    exact ih (start + 1) _ (by omega) (rect_elimStep hrect r c start hr)
      (hQelim M r c start hr (by omega) hrect hQ)

lemma loopInv_full_to_RREF {rows cols : ℕ} {M : Mat F} {r c : ℕ} {pcs : List ℕ}
    (hinv : LoopInv rows cols M r c pcs) (hfull : r = rows) (hc : c ≤ cols) :
    RREFForm rows cols M pcs := by
  obtain ⟨hrect, hlen, _, _, hpc, hpair, hpiv, _⟩ := hinv
  exact ⟨hrect, hpair, fun p hp => by have := hpc p hp; omega, by omega, hpiv,
    fun i h1 h2 => by omega⟩

/-- Main structure theorem for the column loop: starting from the loop
invariant, the output is in reduced row-echelon form, and any predicate
preserved by the three elementary row operations is preserved. -/
theorem rrefAux_main {rows cols : ℕ} (vinv : F → F)
    (hvinv : ∀ x : F, x ≠ 0 → vinv x * x = 1)
    (Q : Mat F → Prop)
    (hQswap : ∀ (M : Mat F) (i j : ℕ), i < rows → j < rows → Rect rows cols M → Q M →
      Q (rowSwap M i j))
    (hQscale : ∀ (M : Mat F) (r : ℕ) (k : F), r < rows → k ≠ 0 → Rect rows cols M → Q M →
      Q (scaleRow M r k))
    (hQelim : ∀ (M : Mat F) (r c ri : ℕ), r < rows → ri < rows → Rect rows cols M → Q M →
      Q (elimStep M r c ri)) :
    ∀ (fuel c r : ℕ) (M : Mat F) (pcs : List ℕ),
      c + fuel = cols → LoopInv rows cols M r c pcs → Q M →
      RREFForm rows cols (rrefAux vinv rows fuel c r M pcs).1
        (rrefAux vinv rows fuel c r M pcs).2 ∧
      Q (rrefAux vinv rows fuel c r M pcs).1 := by
  intro fuel
  induction fuel with
  | zero =>
    intro c r M pcs hcols hinv hQ
    obtain ⟨hrect, hlen, hrr, hrc, hpc, hpair, hpiv, hbz⟩ := hinv
    subst hlen
    rw [rrefAux]
    refine ⟨⟨hrect, hpair, ?_, ?_, hpiv, ?_⟩, hQ⟩
    · intro p hp
      have := hpc p hp
      omega
    · show pcs.length ≤ rows
      omega
    · intro i h1 h2 j hj
      refine hbz i h1 h2 j ?_
      show j < c
      omega
  | succ k ih =>
    intro c r M pcs hcols hinv hQ
    cases hfind : findPivotAux M c (rows - r) r with
    | none =>
      rw [rrefAux_succ_none vinv hfind]
      refine ih (c + 1) r M pcs (by omega) ?_ hQ
      obtain ⟨hrect, hlen, hrr, hrc, hpc, hpair, hpiv, hbz⟩ := hinv
      refine ⟨hrect, hlen, hrr, by omega, fun p hp => by have := hpc p hp; omega, hpair,
        hpiv, ?_⟩
      intro i h1 h2 j hj
      rcases lt_or_ge j c with hjc | hjc
      · exact hbz i h1 h2 j hjc
      · have hjeq : j = c := by omega
        subst hjeq
        exact findPivotAux_none hfind i h1 (by omega)
    | some pr =>
      obtain ⟨hpr1, hpr2, hpr3, hpr4⟩ := findPivotAux_some hfind
      have hprrows : pr < rows := by omega
      have hrrows : r < rows := by omega
      have hrect : Rect rows cols M := hinv.1
      have hnew := pivot_step_inv vinv hvinv hinv (by omega) hfind
      -- Q is preserved through the three stages
      have s1 : Rect rows cols (if pr ≠ r then rowSwap M pr r else M) := by
        by_cases h : pr ≠ r
        · rw [if_pos h]; exact rect_rowSwap hrect hprrows hrrows
        · rw [if_neg h]; exact hrect
      have hQ1 : Q (if pr ≠ r then rowSwap M pr r else M) := by
        by_cases h : pr ≠ r
        · rw [if_pos h]; exact hQswap M pr r hprrows hrrows hrect hQ
        · rw [if_neg h]; exact hQ
      have s5 : entry (if pr ≠ r then rowSwap M pr r else M) r c ≠ 0 := by
        by_cases h : pr ≠ r
        · rw [if_pos h, entry_def, rowOf_rowSwap M (by rw [hrect.1]; exact hprrows)
            (by rw [hrect.1]; exact hrrows)]
          by_cases hc : r = r
          · rw [if_pos hc, ← entry_def]; exact hpr3
          · omega
        · push_neg at h
          rw [if_neg (not_not_intro h), ← h]
          exact hpr3
      have hvnz : vinv (entry (if pr ≠ r then rowSwap M pr r else M) r c) ≠ 0 := by
        intro hzero
        have := hvinv _ s5
        rw [hzero, zero_mul] at this
        exact one_ne_zero this.symm
      have t1 : Rect rows cols (if entry (if pr ≠ r then rowSwap M pr r else M) r c ≠ 1 then
          scaleRow (if pr ≠ r then rowSwap M pr r else M) r
            (vinv (entry (if pr ≠ r then rowSwap M pr r else M) r c))
        else (if pr ≠ r then rowSwap M pr r else M)) := by
        by_cases h : entry (if pr ≠ r then rowSwap M pr r else M) r c ≠ 1
        · rw [if_pos h]; exact rect_scaleRow s1 r _
        · rw [if_neg h]; exact s1
      have hQ2 : Q (if entry (if pr ≠ r then rowSwap M pr r else M) r c ≠ 1 then
          scaleRow (if pr ≠ r then rowSwap M pr r else M) r
            (vinv (entry (if pr ≠ r then rowSwap M pr r else M) r c))
        else (if pr ≠ r then rowSwap M pr r else M)) := by
        by_cases h : entry (if pr ≠ r then rowSwap M pr r else M) r c ≠ 1
        · rw [if_pos h]; exact hQscale _ r _ hrrows hvnz s1 hQ1
        · rw [if_neg h]; exact hQ1
      have hQ3 : Q (eliminate (if entry (if pr ≠ r then rowSwap M pr r else M) r c ≠ 1 then
          scaleRow (if pr ≠ r then rowSwap M pr r else M) r
            (vinv (entry (if pr ≠ r then rowSwap M pr r else M) r c))
        else (if pr ≠ r then rowSwap M pr r else M)) r c rows) :=
        Q_elimAux Q hQelim r c hrrows rows 0 _ (by omega) t1 hQ2
      rw [rrefAux_succ_some vinv hfind]
      simp only []
      by_cases hb : r + 1 = rows
      · rw [if_pos hb]
        exact ⟨loopInv_full_to_RREF hnew hb (by omega), hQ3⟩
      · rw [if_neg hb]
        exact ih (c + 1) (r + 1) _ (pcs ++ [c]) (by omega) hnew hQ3

/-! ### Second pass on an already-reduced matrix (idempotence) -/

lemma elimAux_id {M : Mat F} {r c : ℕ} :
    ∀ (fuel start : ℕ), (∀ ri, start ≤ ri → ri < start + fuel → ri = r ∨ entry M ri c = 0) →
      elimAux r c fuel start M = M := by
  intro fuel
  induction fuel with
  | zero => intro start _; rfl
  | succ k ih =>
    intro start hzero
    have hstep : elimStep M r c start = M := by
      rcases hzero start (by omega) (by omega) with h | h
      · rw [elimStep, if_pos h]
      · rw [elimStep]
        by_cases h1 : start = r
        · rw [if_pos h1]
        · rw [if_neg h1, if_pos h]
    rw [elimAux, hstep]
    exact ih (start + 1) fun ri h1 h2 => hzero ri (by omega) (by omega)

/-- A second pass of the column loop over a matrix already in reduced
row-echelon form changes nothing and reproduces the pivot columns. -/
lemma rrefAux_fixpoint {rows cols : ℕ} (vinv : F → F) {M : Mat F} {pcs : List ℕ}
    (hform : RREFForm rows cols M pcs) :
    ∀ (fuel c r : ℕ), c + fuel = cols → r ≤ pcs.length →
      (∀ i, (h : i < pcs.length) → (i < r ↔ pcs.get ⟨i, h⟩ < c)) →
      rrefAux vinv rows fuel c r M (pcs.take r) = (M, pcs) := by
  obtain ⟨hrect, hpair, hpcols, hlenrows, hpiv, htail⟩ := hform
  have hmono : ∀ i j, (hi : i < pcs.length) → (hj : j < pcs.length) → i < j →
      pcs.get ⟨i, hi⟩ < pcs.get ⟨j, hj⟩ := by
    intro i j hi hj hij
    exact List.pairwise_iff_get.mp hpair ⟨i, hi⟩ ⟨j, hj⟩ hij
  intro fuel
  induction fuel with
  | zero =>
    intro c r hcols hr hlt
    have hreq : r = pcs.length := by
      by_contra hne
      have hrlt : r < pcs.length := by omega
      have h1 : pcs.get ⟨r, hrlt⟩ < cols := hpcols _ (pcs.get_mem _ _)
      have h2 := (hlt r hrlt).mpr (by omega)
      omega
    rw [rrefAux, List.take_of_length_le (by omega)]
  | succ k ih =>
    intro c r hcols hr hlt
    by_cases hpivcol : ∃ h : r < pcs.length, pcs.get ⟨r, h⟩ = c
    · obtain ⟨hrlen, hgetc⟩ := hpivcol
      have hrrows : r < rows := by omega
      obtain ⟨p1, p2, p3⟩ := hpiv r hrlen
      rw [hgetc] at p1 p2
      have hfind : findPivotAux M c (rows - r) r = some r := by
        obtain ⟨m, hm⟩ : ∃ m, rows - r = m + 1 := ⟨rows - r - 1, by omega⟩
        rw [hm, findPivotAux, if_pos (by rw [p1]; exact one_ne_zero)]
      rw [rrefAux_succ_some vinv hfind]
      simp only []
      have e1 : (if r ≠ r then rowSwap M r r else M) = M := if_neg (fun h => h rfl)
      rw [e1]
      have e2 : (if entry M r c ≠ 1 then scaleRow M r (vinv (entry M r c)) else M) = M :=
        if_neg (not_not_intro p1)
      rw [e2]
      have helim : eliminate M r c rows = M :=
        elimAux_id rows 0 (by
          intro ri h1 h2
          rcases eq_or_ne ri r with rfl | hne
          · exact Or.inl rfl
          · exact Or.inr (p2 ri (by omega) hne))
      rw [helim]
      have htake : pcs.take r ++ [c] = pcs.take (r + 1) := by
        rw [List.take_succ, List.getElem?_eq_getElem hrlen]
        simp only [Option.toList_some]
        rw [← hgetc, List.get_eq_getElem]
      by_cases hbreak : r + 1 = rows
      · rw [if_pos hbreak, htake]
        have : pcs.length = r + 1 := by omega
        rw [List.take_of_length_le (by omega)]
      · rw [if_neg hbreak, htake]
        refine ih (c + 1) (r + 1) (by omega) (by omega) ?_
        intro i hi
        constructor
        · intro hir
          rcases lt_or_ge i r with h | h
          · have := (hlt i hi).mp h
            omega
          · have hieq : i = r := by omega
            subst hieq
            rw [hgetc]
            omega
        · intro hic
          by_contra hge
          have hgt : pcs.get ⟨r, hrlen⟩ < pcs.get ⟨i, hi⟩ := hmono r i hrlen hi (by omega)
          rw [hgetc] at hgt
          omega
    · have hfind : findPivotAux M c (rows - r) r = none := by
        have hzero : ∀ ri, r ≤ ri → ri < rows → entry M ri c = 0 := by
          intro ri h1 h2
          rcases lt_or_ge ri pcs.length with hlen | hlen
          · obtain ⟨q1, q2, q3⟩ := hpiv ri hlen
            refine q3 c ?_
            have hge : ¬ pcs.get ⟨ri, hlen⟩ < c := fun hcc => by
              have := (hlt ri hlen).mpr hcc
              omega
            have hne : pcs.get ⟨ri, hlen⟩ ≠ c := by
              intro hEq
              rcases eq_or_ne ri r with rfl | hne2
              · exact hpivcol ⟨hlen, hEq⟩
              · have := (hlt ri hlen).mp
                have hgt : pcs.get ⟨r, by omega⟩ < pcs.get ⟨ri, hlen⟩ :=
                  hmono r ri (by omega) hlen (by omega)
                have hrc : pcs.get ⟨r, by omega⟩ < c := by omega
                have := (hlt r (by omega)).mpr hrc
                omega
            omega
          · exact htail ri hlen h2 c (by omega)
        cases hres : findPivotAux M c (rows - r) r with
        | none => rfl
        | some pr =>
          obtain ⟨e1, e2, e3, _⟩ := findPivotAux_some hres
          exact absurd (hzero pr e1 (by omega)) e3
      rw [rrefAux_succ_none vinv hfind]
      refine ih (c + 1) r (by omega) hr ?_
      intro i hi
      constructor
      · intro hir
        have := (hlt i hi).mp hir
        omega
      · intro hic
        refine (hlt i hi).mpr ?_
        have hne : pcs.get ⟨i, hi⟩ ≠ c := by
          intro hEq
          rcases lt_or_ge i r with h | h
          · have := (hlt i hi).mp h
            omega
          · rcases eq_or_ne i r with rfl | hne2
            · exact hpivcol ⟨hi, hEq⟩
            · have hgt : pcs.get ⟨r, by omega⟩ < pcs.get ⟨i, hi⟩ :=
                hmono r i (by omega) hi (by omega)
            -- r < i, pcs[r] < pcs[i] = c, so pcs[r] < c, so r < r: contradiction
              have := (hlt r (by omega)).mpr (by omega)
              omega
        omega

/-- `pow(x, -1, 3)` really inverts every non-zero element of `Z_3`. -/
lemma pyModInv3_spec : ∀ x : ZMod 3, x ≠ 0 → pyModInv 3 x * x = 1 := by decide

/-- `pow(x, -1, 2)` really inverts every non-zero element of `Z_2`. -/
lemma pyModInv2_spec : ∀ x : ZMod 2, x ≠ 0 → pyModInv 2 x * x = 1 := by decide

/-- The trivial initial loop invariant at `(c, r) = (0, 0)`. -/
lemma loopInv_init {rows cols : ℕ} {M : Mat F} (hrect : Rect rows cols M) :
    LoopInv rows cols M 0 0 [] :=
  ⟨hrect, rfl, by omega, by omega, by simp, by simp,
    fun i h => absurd h (by simp), fun i h1 h2 j hj => by omega⟩

/-- First-pass summary: `rrefF` always outputs a matrix in reduced
row-echelon normal form together with its pivot columns. -/
lemma rrefF_form {rows cols : ℕ} (vinv : F → F)
    (hvinv : ∀ x : F, x ≠ 0 → vinv x * x = 1) {M : Mat F} (hrect : Rect rows cols M) :
    RREFForm rows cols (rrefF vinv rows cols M).1 (rrefF vinv rows cols M).2 := by
  have h := rrefAux_main vinv hvinv (fun _ => True)
    (fun _ _ _ _ _ _ _ => trivial) (fun _ _ _ _ _ _ _ => trivial)
    (fun _ _ _ _ _ _ _ _ => trivial) cols 0 0 M [] (by omega) (loopInv_init hrect) trivial
  exact h.1

lemma headI_eq_rowOf_zero (M : Mat F) : M.headI = rowOf M 0 := by
  cases M <;> rfl

/-- C8.  `rref_mod3` is idempotent: re-reducing the matrix component of its
output returns that matrix unchanged (in fact with the same pivot list). -/
theorem claim_C8_idempotent (M : Mat (ZMod 3))
    (hrect : ∀ i, i < M.length → (rowOf M i).length = M.headI.length) :
    (rref_mod3 (rref_mod3 M).1).1 = (rref_mod3 M).1 := by
  have hform := rrefF_form (pyModInv 3) pyModInv3_spec
    (M := M) (⟨rfl, hrect⟩ : Rect M.length M.headI.length M)
  obtain ⟨hrectR, hpair, hpcols, hlenrows, hpiv, htail⟩ := hform
  rcases Nat.eq_zero_or_pos M.length with hzero | hpos
  · have hnil : M = [] := List.length_eq_zero.mp hzero
    subst hnil
    rfl
  · have hfix := rrefAux_fixpoint (pyModInv 3)
      (⟨hrectR, hpair, hpcols, hlenrows, hpiv, htail⟩ :
        RREFForm M.length M.headI.length (rref_mod3 M).1 (rref_mod3 M).2)
      M.headI.length 0 0 (by omega) (by omega)
      (fun i h => ⟨fun h0 => absurd h0 (by omega), fun h0 => absurd h0 (by omega)⟩)
    have hRlen : (rref_mod3 M).1.length = M.length := hrectR.1
    have hRheadI : (rref_mod3 M).1.headI.length = M.headI.length := by
      rw [headI_eq_rowOf_zero]
      exact hrectR.2 0 (by omega)
    have : rref_mod3 (rref_mod3 M).1 = ((rref_mod3 M).1, (rref_mod3 M).2) := by
      rw [rref_mod3, hRlen, hRheadI]
      exact hfix
    rw [this]

/-- Witness for C8 on a concrete 2×3 matrix over `Z_3`. -/
theorem claim_C8_idempotent_witness :
    (rref_mod3 (rref_mod3 [[1, 2, 0], [2, 1, 1]]).1).1 = (rref_mod3 [[1, 2, 0], [2, 1, 1]]).1 :=
  claim_C8_idempotent [[1, 2, 0], [2, 1, 1]] (by decide)

/-! ### The identity block as a square matrix, and the row relation

For the augmented matrix `[Mᵗ | Iₙ]` the last `n` columns of each row record
the coefficients expressing that row in terms of the original rows.  Their
square matrix `pmatL` starts as the identity and keeps a non-zero determinant
through all three elementary operations, while `rowRelA` records that the
first `k` entries of every row stay the corresponding combination of the
equation vectors. -/

/-- The square matrix formed by columns `k, …, k + n - 1` of `M`. -/
def pmatL (k n : ℕ) (M : Mat F) : Matrix (Fin n) (Fin n) F :=
  Matrix.of fun i m => entry M i.val (k + m.val)

/-- Row `rw` carries the linear relation: its first `k` entries are the
`E`-combinations given by its identity-block coefficients. -/
def rowRelA (E : Mat F) (k n : ℕ) (rw : List F) : Prop :=
  ∀ j, j < k → rw.getD j 0 = ∑ m : Fin n, rw.getD (k + m.val) 0 * entry E j m.val

/-- All rows of `M` carry the linear relation. -/
def QA (E : Mat F) (k n : ℕ) (M : Mat F) : Prop := ∀ i, i < n → rowRelA E k n (rowOf M i)

lemma pmatL_apply (k n : ℕ) (M : Mat F) (i m : Fin n) :
    pmatL k n M i m = entry M i.val (k + m.val) := rfl

lemma pmat_rowSwap {M : Mat F} {a b n k : ℕ} (ha : a < n) (hb : b < n)
    (hlen : M.length = n) :
    pmatL k n (rowSwap M a b) =
      (pmatL k n M).submatrix (Equiv.swap ⟨a, ha⟩ ⟨b, hb⟩) id := by
  ext l m
  rw [Matrix.submatrix_apply, id_eq, pmatL_apply, pmatL_apply, entry_def,
    rowOf_rowSwap M (by omega) (by omega), Equiv.swap_apply_def]
  by_cases h1 : l = (⟨a, ha⟩ : Fin n)
  · have : l.val = a := by rw [h1]
    by_cases h2 : l.val = b
    · rw [if_pos h2, if_pos h1, ← entry_def]
      have hab : a = b := by omega
      subst hab
      congr 1
    · rw [if_neg h2, if_pos this, if_pos h1, ← entry_def]
  · have hval : l.val ≠ a := fun hEq => h1 (Fin.ext hEq)
    rw [if_neg h1]
    by_cases h2 : l = (⟨b, hb⟩ : Fin n)
    · have : l.val = b := by rw [h2]
      rw [if_pos this, if_pos h2, ← entry_def]
    · have hval2 : l.val ≠ b := fun hEq => h2 (Fin.ext hEq)
      rw [if_neg hval2, if_neg hval, if_neg h2, ← entry_def]

lemma pmat_scaleRow {M : Mat F} {r n k : ℕ} (hr : r < n) (hlen : M.length = n) (c : F) :
    pmatL k n (scaleRow M r c) =
      (pmatL k n M).updateRow ⟨r, hr⟩ (c • pmatL k n M ⟨r, hr⟩) := by
  ext l m
  by_cases h : l = (⟨r, hr⟩ : Fin n)
  · subst h
    rw [Matrix.updateRow_self, pmatL_apply, entry_scaleRow_self c (by omega)]
    rfl
  · rw [Matrix.updateRow_ne h, pmatL_apply, pmatL_apply, entry_def,
      rowOf_scaleRow_ne M c (fun hEq => h (Fin.ext hEq)), entry_def]

lemma pmat_elimStep {M : Mat F} {r c ri n k : ℕ} (hri : ri < n) (hr : r < n)
    (hrect : Rect n (k + n) M) (hne : ri ≠ r) (hc : entry M ri c ≠ 0) :
    pmatL k n (elimStep M r c ri) =
      (pmatL k n M).updateRow ⟨ri, hri⟩
        (pmatL k n M ⟨ri, hri⟩ + (- entry M ri c) • pmatL k n M ⟨r, hr⟩) := by
  ext l m
  by_cases h : l = (⟨ri, hri⟩ : Fin n)
  · subst h
    rw [Matrix.updateRow_self, pmatL_apply, entry_def,
      rowOf_elimStep_self M r c ri (by rw [hrect.1]; omega),
      if_neg hne, if_neg hc, subRow_getD _ (by rw [hrect.2 ri hri, hrect.2 r hr])]
    show entry M ri (k + m.val) - entry M ri c * entry M r (k + m.val) = _
    simp only [Pi.add_apply, Pi.smul_apply, pmatL_apply, smul_eq_mul]
    ring
  · rw [Matrix.updateRow_ne h, pmatL_apply, pmatL_apply, entry_def,
      rowOf_elimStep_ne M r c ri (fun hEq => h (Fin.ext hEq)), entry_def]

/-- The initial augmented matrix has the identity in its last `n` columns. -/
lemma pmat_mkAugmented {Mt : Mat F} {n k : ℕ} (hlen : Mt.length = n)
    (hrows : ∀ i, i < n → (rowOf Mt i).length = k) :
    pmatL k n (mkAugmented Mt) = 1 := by
  ext i m
  rw [pmatL_apply, entry_def]
  have hrow : rowOf (mkAugmented Mt) i.val = rowOf Mt i.val ++ rowOf (identityL n) i.val := by
    rw [mkAugmented, hlen, rowOf, List.getD_eq_getElem _ _ (by
      rw [List.length_zipWith, hlen, identityL, List.length_map, List.length_range]
      simp [i.isLt])]
    rw [List.getElem_zipWith]
    rw [rowOf, rowOf, List.getD_eq_getElem _ _ (by rw [hlen]; exact i.isLt),
      List.getD_eq_getElem _ _ (by
        rw [identityL, List.length_map, List.length_range]; exact i.isLt)]
  rw [hrow, List.getD_append_right _ _ _ _ (by rw [hrows i.val i.isLt]; omega),
    hrows i.val i.isLt, Nat.add_sub_cancel_left]
  have hid : rowOf (identityL n) i.val = (List.range n).map fun j => if i.val = j then (1 : F) else 0 := by
    rw [identityL, rowOf]
    exact getD_map_range _ _ i.isLt
  rw [hid, getD_map_range _ _ m.isLt]
  by_cases h : i = m
  · subst h
    rw [if_pos rfl, Matrix.one_apply_eq]
  · rw [if_neg (fun hEq => h (Fin.ext hEq)), Matrix.one_apply_ne h]

/-! ### Preservation of the row relation and the determinant -/

/-- The combined predicate carried through the reduction of the augmented
matrix: every row keeps the linear relation against the equation matrix, and
the identity-block square matrix stays invertible. -/
def QAug (E : Mat F) (k n : ℕ) (M : Mat F) : Prop :=
  QA E k n M ∧ (pmatL k n M).det ≠ 0

lemma rowRelA_map_mul {E : Mat F} {k n : ℕ} (c : F) {rw : List F}
    (h : rowRelA E k n rw) : rowRelA E k n (rw.map fun x => c * x) := by
  intro j hj
  rw [map_mul_getD, h j hj, Finset.mul_sum]
  refine Finset.sum_congr rfl fun m _ => ?_
  rw [map_mul_getD]
  ring

lemma rowRelA_subRow {E : Mat F} {k n : ℕ} (c : F) {a b : List F}
    (h1 : rowRelA E k n a) (h2 : rowRelA E k n b) (hlen : a.length = b.length) :
    rowRelA E k n (subRow a c b) := by
  intro j hj
  rw [subRow_getD c hlen, h1 j hj, h2 j hj, Finset.mul_sum, ← Finset.sum_sub_distrib]
  refine Finset.sum_congr rfl fun x _ => ?_
  rw [subRow_getD c hlen]
  ring

lemma QAug_rowSwap {E : Mat F} {k n : ℕ} (M : Mat F) (a b : ℕ) (ha : a < n) (hb : b < n)
    (hrect : Rect n (k + n) M) (hQ : QAug E k n M) : QAug E k n (rowSwap M a b) := by
  obtain ⟨hQA, hdet⟩ := hQ
  refine ⟨?_, ?_⟩
  · intro i hi
    rw [rowOf_rowSwap M (by rw [hrect.1]; omega) (by rw [hrect.1]; omega)]
    split
    · exact hQA a ha
    · split
      · exact hQA b hb
      · exact hQA i hi
  · rw [pmat_rowSwap ha hb hrect.1, Matrix.det_permute]
    intro h0
    rcases mul_eq_zero.mp h0 with h1 | h1
    · have hne : ((Equiv.Perm.sign (Equiv.swap (⟨a, ha⟩ : Fin n) ⟨b, hb⟩) : ℤ) : F) ≠ 0 := by
        rcases Int.units_eq_one_or (Equiv.Perm.sign (Equiv.swap (⟨a, ha⟩ : Fin n) ⟨b, hb⟩)) with
          hs | hs <;> rw [hs] <;> simp
      exact hne h1
    · exact hdet h1

lemma QAug_scaleRow {E : Mat F} {k n : ℕ} (M : Mat F) (r : ℕ) (c : F) (hr : r < n)
    (hc : c ≠ 0) (hrect : Rect n (k + n) M) (hQ : QAug E k n M) :
    QAug E k n (scaleRow M r c) := by
  obtain ⟨hQA, hdet⟩ := hQ
  refine ⟨?_, ?_⟩
  · intro i hi
    rcases eq_or_ne i r with rfl | hir
    · rw [rowOf_scaleRow_self c (by rw [hrect.1]; omega)]
      exact rowRelA_map_mul c (hQA i hi)
    · rw [rowOf_scaleRow_ne M c hir]
      exact hQA i hi
  · rw [pmat_scaleRow hr hrect.1, Matrix.det_updateRow_smul, Matrix.updateRow_eq_self]
    exact mul_ne_zero hc hdet

lemma QAug_elimStep {E : Mat F} {k n : ℕ} (M : Mat F) (r c ri : ℕ) (hr : r < n)
    (hri : ri < n) (hrect : Rect n (k + n) M) (hQ : QAug E k n M) :
    QAug E k n (elimStep M r c ri) := by
  obtain ⟨hQA, hdet⟩ := hQ
  by_cases h1 : ri = r
  · rw [elimStep, if_pos h1]
    exact ⟨hQA, hdet⟩
  · by_cases h2 : entry M ri c = 0
    · rw [elimStep, if_neg h1, if_pos h2]
      exact ⟨hQA, hdet⟩
    · refine ⟨?_, ?_⟩
      · intro i hi
        rcases eq_or_ne i ri with rfl | hir
        · rw [rowOf_elimStep_self M r c i (by rw [hrect.1]; omega), if_neg h1, if_neg h2]
          exact rowRelA_subRow _ (hQA i hi) (hQA r hr)
            (by rw [hrect.2 i hi, hrect.2 r hr])
        · rw [rowOf_elimStep_ne M r c ri hir]
          exact hQA i hi
      · rw [pmat_elimStep hri hr hrect h1 h2,
          Matrix.det_updateRow_add_smul_self _ (Fin.ne_of_val_ne h1)]
        exact hdet

/-! ### The initial augmented matrix -/

lemma rowOf_transposeL {M : Mat F} {rows cols j : ℕ} (hj : j < cols) :
    rowOf (transposeL M rows cols) j = (List.range rows).map fun i => entry M i j :=
  getD_map_range _ _ hj

lemma entry_transposeL {M : Mat F} {rows cols i j : ℕ} (hj : j < cols) (hi : i < rows) :
    entry (transposeL M rows cols) j i = entry M i j := by
  rw [entry_def, rowOf_transposeL hj, getD_map_range _ _ hi]

lemma transposeL_rect (M : Mat F) (rows cols : ℕ) : Rect cols rows (transposeL M rows cols) := by
  refine ⟨by rw [transposeL, List.length_map, List.length_range], ?_⟩
  intro j hj
  rw [rowOf_transposeL hj, List.length_map, List.length_range]

lemma identityL_length (n : ℕ) : (identityL n : Mat F).length = n := by
  rw [identityL, List.length_map, List.length_range]

lemma rowOf_identityL {n i : ℕ} (hi : i < n) :
    rowOf (identityL n : Mat F) i = (List.range n).map fun j => if i = j then (1 : F) else 0 :=
  getD_map_range _ _ hi

lemma rowOf_mkAugmented {Mt : Mat F} {n : ℕ} (hlen : Mt.length = n) {i : ℕ} (hi : i < n) :
    rowOf (mkAugmented Mt) i = rowOf Mt i ++ rowOf (identityL n) i := by
  rw [mkAugmented, hlen, rowOf, List.getD_eq_getElem _ _ (by
    rw [List.length_zipWith, hlen, identityL_length]
    simp [hi])]
  rw [List.getElem_zipWith]
  rw [rowOf, rowOf, List.getD_eq_getElem _ _ (by rw [hlen]; exact hi),
    List.getD_eq_getElem _ _ (by rw [identityL_length]; exact hi)]

lemma mkAugmented_rect {n k : ℕ} {Mt : Mat F} (h : Rect n k Mt) :
    Rect n (k + n) (mkAugmented Mt) := by
  refine ⟨?_, ?_⟩
  · rw [mkAugmented, List.length_zipWith, h.1, identityL_length]
    omega
  · intro i hi
    rw [rowOf_mkAugmented h.1 hi, List.length_append, h.2 i hi, rowOf_identityL hi,
      List.length_map, List.length_range]

/-- Initially every row of `[Mᵗ | I]` carries the linear relation against the
equation rows. -/
lemma QA_init {E : Mat F} {k n : ℕ} (hE : Rect k n E) :
    QA E k n (mkAugmented (transposeL E k n)) := by
  intro i hi j hj
  have hlenT : (transposeL E k n).length = n := (transposeL_rect E k n).1
  have hrowT : (rowOf (transposeL E k n) i).length = k := (transposeL_rect E k n).2 i hi
  rw [rowOf_mkAugmented hlenT hi]
  rw [List.getD_append _ _ _ _ (by omega)]
  have hLHS : (rowOf (transposeL E k n) i).getD j 0 = entry E j i := by
    rw [← entry_def]
    exact entry_transposeL hi hj
  rw [hLHS]
  have hRHS : ∀ m : Fin n,
      (rowOf (transposeL E k n) i ++ rowOf (identityL n) i).getD (k + m.val) 0 =
        if i = m.val then (1 : F) else 0 := by
    intro m
    rw [List.getD_append_right _ _ _ _ (by omega), hrowT, Nat.add_sub_cancel_left,
      rowOf_identityL hi, getD_map_range _ _ m.isLt]
  have h1 : ∀ m : Fin n,
      (rowOf (transposeL E k n) i ++ rowOf (identityL n) i).getD (k + m.val) 0 *
        entry E j m.val =
      (if (⟨i, hi⟩ : Fin n) = m then entry E j m.val else 0) := by
    intro m
    rw [hRHS m]
    by_cases h : i = m.val
    · rw [if_pos h, if_pos (Fin.ext h), one_mul]
    · rw [if_neg h, if_neg (fun hEq => h (congrArg Fin.val hEq)), zero_mul]
  symm
  rw [Finset.sum_congr rfl (fun m _ => h1 m), Finset.sum_ite_eq,
    if_pos (Finset.mem_univ _)]

/-- Summary of the first pass over the augmented matrix `[Eᵗ | Iₙ]`: the
result is in reduced echelon form, still satisfies the row relation, its
identity block is invertible, and — because of the identity block — the rank
always reaches the full row count `n`. -/
lemma rrefF_augmented {k n : ℕ} (vinv : F → F)
    (hvinv : ∀ x : F, x ≠ 0 → vinv x * x = 1) (E : Mat F) (hE : Rect k n E) :
    RREFForm n (k + n) (rrefF vinv n (k + n) (mkAugmented (transposeL E k n))).1
      (rrefF vinv n (k + n) (mkAugmented (transposeL E k n))).2 ∧
    QAug E k n (rrefF vinv n (k + n) (mkAugmented (transposeL E k n))).1 ∧
    (rrefF vinv n (k + n) (mkAugmented (transposeL E k n))).2.length = n := by
  have hrect0 : Rect n (k + n) (mkAugmented (transposeL E k n)) :=
    mkAugmented_rect (transposeL_rect E k n)
  have hQ0 : QAug E k n (mkAugmented (transposeL E k n)) := by
    refine ⟨QA_init hE, ?_⟩
    rw [pmat_mkAugmented (transposeL_rect E k n).1 (transposeL_rect E k n).2, Matrix.det_one]
    exact one_ne_zero
  have h := rrefAux_main vinv hvinv (QAug E k n)
    (fun M a b hab hb hrect hQ => QAug_rowSwap M a b hab hb hrect hQ)
    (fun M r c hr hc hrect hQ => QAug_scaleRow M r c hr hc hrect hQ)
    (fun M r c ri hr hri hrect hQ => QAug_elimStep M r c ri hr hri hrect hQ)
    (k + n) 0 0 (mkAugmented (transposeL E k n)) [] (by omega) (loopInv_init hrect0) hQ0
  obtain ⟨hform, hQ⟩ := h
  refine ⟨hform, hQ, ?_⟩
  obtain ⟨hrectR, hpair, hpcols, hlenrows, hpiv, htail⟩ := hform
  rw [rrefF]
  by_contra hne
  have hlt : (rrefAux vinv n (k + n) 0 0 (mkAugmented (transposeL E k n)) []).2.length < n := by
    omega
  apply hQ.2
  apply Matrix.det_eq_zero_of_row_eq_zero
    (⟨(rrefAux vinv n (k + n) 0 0 (mkAugmented (transposeL E k n)) []).2.length, hlt⟩ : Fin n)
  intro m
  rw [pmatL_apply]
  exact htail _ le_rfl hlt _ (by omega)

lemma pairwise_get_ge {l : List ℕ} (h : l.Pairwise (· < ·)) :
    ∀ i, (hi : i < l.length) → i ≤ l.get ⟨i, hi⟩ := by
  intro i
  induction i with
  | zero => intro hi; omega
  | succ m ih =>
    intro hi
    have h1 := ih (by omega)
    have h2 : l.get ⟨m, by omega⟩ < l.get ⟨m + 1, hi⟩ :=
      List.pairwise_iff_get.mp h ⟨m, by omega⟩ ⟨m + 1, hi⟩ (Fin.mk_lt_mk.mpr (by omega))
    omega

/-- C6 counterexample.  On the augmented matrix of the single equation
`(1, 1)` over `Z_3` (the `n = 2` instance occurring inside
`recover_secret_string_3d`), the reduction selects pivot columns `[0, 1]`:
column `1` lies in the appended identity block (the `Mᵗ` block has only
column `0`), and row 0 is eliminated against it — so the pivot search is not
confined to the first `rows` columns. -/
theorem claim_C6_counterexample :
    (rref_mod3 (mkAugmented (transposeL ([[1, 1]] : Mat (ZMod 3)) 1 2))).2 = [0, 1] ∧
    mkAugmented (transposeL ([[1, 1]] : Mat (ZMod 3)) 1 2) = [[1, 1, 0], [1, 0, 1]] ∧
    (rref_mod3 ([[1, 1, 0], [1, 0, 1]] : Mat (ZMod 3))).1 = [[1, 0, 1], [0, 1, 2]] ∧
    ¬ (1 : ℕ) < 1 := by decide

/-- C6 amended.  The pivot search of the modular reduction scans *all*
columns of `[Mᵗ | Iₙ]` left to right, stopping only when the rank reaches the
row count `n`; thanks to the identity block the rank always does reach `n`,
the pivot columns are strictly increasing, and whenever there are fewer
equations than rows (`k < n`) at least one pivot column necessarily lies in
the identity block. -/
theorem claim_C6_pivot_columns (k nn : ℕ) (E : Mat (ZMod 3)) (hrect : Rect k nn E) :
    (rrefF (pyModInv 3) nn (k + nn) (mkAugmented (transposeL E k nn))).2.Pairwise (· < ·) ∧
    (rrefF (pyModInv 3) nn (k + nn) (mkAugmented (transposeL E k nn))).2.length = nn ∧
    (∀ p ∈ (rrefF (pyModInv 3) nn (k + nn) (mkAugmented (transposeL E k nn))).2, p < k + nn) ∧
    (k < nn → ∃ p ∈ (rrefF (pyModInv 3) nn (k + nn) (mkAugmented (transposeL E k nn))).2,
      k ≤ p) := by
  obtain ⟨hform, hQ, hfull⟩ := rrefF_augmented (pyModInv 3) pyModInv3_spec E hrect
  obtain ⟨hrectR, hpair, hpcols, hlenrows, hpiv, htail⟩ := hform
  refine ⟨hpair, hfull, hpcols, ?_⟩
  intro hkn
  have hlast : nn - 1 < (rrefF (pyModInv 3) nn (k + nn)
      (mkAugmented (transposeL E k nn))).2.length := by omega
  refine ⟨(rrefF (pyModInv 3) nn (k + nn) (mkAugmented (transposeL E k nn))).2.get
    ⟨nn - 1, hlast⟩, List.get_mem _ _ _, ?_⟩
  have := pairwise_get_ge hpair (nn - 1) hlast
  omega

/-- Witness for the amended C6: one equation `(1, 1)` in two ternary
unknowns, where the second pivot column (index 1) is an identity column. -/
theorem claim_C6_pivot_columns_witness :
    (rrefF (pyModInv 3) 2 (1 + 2) (mkAugmented (transposeL [[1, 1]] 1 2))).2.Pairwise (· < ·) ∧
    (rrefF (pyModInv 3) 2 (1 + 2) (mkAugmented (transposeL [[1, 1]] 1 2))).2.length = 2 ∧
    (∀ p ∈ (rrefF (pyModInv 3) 2 (1 + 2) (mkAugmented (transposeL [[1, 1]] 1 2))).2, p < 1 + 2) ∧
    ((1 : ℕ) < 2 → ∃ p ∈ (rrefF (pyModInv 3) 2 (1 + 2) (mkAugmented (transposeL [[1, 1]] 1 2))).2,
      1 ≤ p) :=
  claim_C6_pivot_columns 1 2 [[1, 1]] ⟨rfl, by decide⟩

/-! ### The null space of a full-rank `(n-1) × n` system is spanned by the
secret -/

lemma ker_span_secret {n k : ℕ} (hk : k + 1 = n)
    (A : Matrix (Fin k) (Fin n) F)
    (hindep : LinearIndependent F (fun j : Fin k => A j))
    (svec : Fin n → F) (hs0 : svec ≠ 0)
    (hsker : ∀ j, ∑ m, A j m * svec m = 0)
    (v : Fin n → F) (hv : ∀ j, ∑ m, A j m * v m = 0) : ∃ a : F, v = a • svec := by
  have hmem : ∀ w : Fin n → F, (∀ j, ∑ m, A j m * w m = 0) →
      w ∈ LinearMap.ker A.mulVecLin := by
    intro w hw
    rw [LinearMap.mem_ker, Matrix.mulVecLin_apply]
    funext j
    rw [Matrix.mulVec, Matrix.dotProduct]
    exact hw j
  have hrange : Module.finrank F (LinearMap.range A.mulVecLin) = k := by
    have h1 : A.rank = Module.finrank F (LinearMap.range A.mulVecLin) := rfl
    have h2 : (Matrix.transpose A).rank = A.rank := Matrix.rank_transpose A
    have h3 : (Matrix.transpose A).rank =
        Module.finrank F (LinearMap.range (Matrix.transpose A).mulVecLin) := rfl
    have h4 : LinearMap.range (Matrix.transpose A).mulVecLin =
        Submodule.span F (Set.range (Matrix.transpose (Matrix.transpose A))) :=
      Matrix.range_mulVecLin (Matrix.transpose A)
    have h5 : Module.finrank F
        (Submodule.span F (Set.range (Matrix.transpose (Matrix.transpose A)))) = k := by
      rw [Matrix.transpose_transpose]
      have := finrank_span_eq_card (R := F) hindep
      rw [this, Fintype.card_fin]
    rw [← h1, ← h2, h3, h4]
    exact h5
  have hker : Module.finrank F (LinearMap.ker A.mulVecLin) = 1 := by
    have hrn := LinearMap.finrank_range_add_finrank_ker A.mulVecLin
    rw [hrange, Module.finrank_fin_fun] at hrn
    omega
  have hspan : Submodule.span F {svec} = LinearMap.ker A.mulVecLin := by
    refine Submodule.eq_of_le_of_finrank_le ?_ ?_
    · rw [Submodule.span_le, Set.singleton_subset_iff]
      exact hmem svec hsker
    · rw [hker, finrank_span_singleton hs0]
  have hvmem : v ∈ Submodule.span F {svec} := by
    rw [hspan]
    exact hmem v hv
  obtain ⟨a, ha⟩ := Submodule.mem_span_singleton.mp hvmem
  exact ⟨a, ha.symm⟩

lemma det_eq_zero_of_smul_row {n : ℕ} {A : Matrix (Fin n) (Fin n) F} {i j : Fin n}
    (hij : i ≠ j) (c : F) (h : A i = c • A j) : A.det = 0 := by
  have h1 : A = A.updateRow i (c • A j) := by
    rw [← h, Matrix.updateRow_eq_self]
  rw [h1, Matrix.det_updateRow_smul]
  have h2 : (A.updateRow i (A j)).det = 0 := by
    refine Matrix.det_zero_of_row_eq hij ?_
    rw [Matrix.updateRow_self, Matrix.updateRow_ne (Ne.symm hij)]
  rw [h2, mul_zero]

/-- The decisive structure of the reduced augmented matrix `[Eᵗ | Iₙ]` of a
full-rank system of `k = n - 1` constraints orthogonal to a non-zero secret:
every row above the last keeps a non-zero entry in the equation block, the
last row's equation block vanishes, and its identity block holds exactly
`(svec j₀)⁻¹ • svec`, the multiple of the secret normalised to leading
coefficient `1` (where `j₀` is the first non-zero position of the secret). -/
theorem rref_augmented_last_row {k n : ℕ} (vinv : F → F)
    (hvinv : ∀ x : F, x ≠ 0 → vinv x * x = 1)
    (hk : k + 1 = n)
    (E : Mat F) (hE : Rect k n E)
    (svec : Fin n → F) (hs0 : svec ≠ 0)
    (horth : ∀ j : Fin k, ∑ m : Fin n, entry E j.val m.val * svec m = 0)
    (hindep : ∀ g : Fin k → F,
      (∀ m : Fin n, ∑ j : Fin k, g j * entry E j.val m.val = 0) → ∀ j, g j = 0) :
    ∃ j0 : Fin n, svec j0 ≠ 0 ∧ (∀ m : Fin n, m.val < j0.val → svec m = 0) ∧
      (∀ j, j < k →
        entry (rrefF vinv n (k + n) (mkAugmented (transposeL E k n))).1 (n - 1) j = 0) ∧
      (∀ m : Fin n,
        entry (rrefF vinv n (k + n) (mkAugmented (transposeL E k n))).1 (n - 1) (k + m.val)
          = (svec j0)⁻¹ * svec m) ∧
      (∀ i, i < n - 1 → ∃ j, j < k ∧
        entry (rrefF vinv n (k + n) (mkAugmented (transposeL E k n))).1 i j ≠ 0) := by
  obtain ⟨hform, hQ, hfull⟩ := rrefF_augmented vinv hvinv E hE
  obtain ⟨hQA, hdet⟩ := hQ
  set R := (rrefF vinv n (k + n) (mkAugmented (transposeL E k n))).1 with hRdef
  set pcs := (rrefF vinv n (k + n) (mkAugmented (transposeL E k n))).2 with hpcsdef
  obtain ⟨hrectR, hpair, hpcols, hlenrows, hpiv, htail⟩ := hform
  have hn1 : 1 ≤ n := by omega
  have hindepL : LinearIndependent F (fun j : Fin k => fun m : Fin n => entry E j.val m.val) := by
    rw [Fintype.linearIndependent_iff]
    intro g hg j
    refine hindep g ?_ j
    intro m
    have hgm := congrFun hg m
    simp only [Finset.sum_apply, Pi.smul_apply, smul_eq_mul, Pi.zero_apply] at hgm
    exact hgm
  have hnull : ∀ i, i < n → (∀ j, j < k → entry R i j = 0) →
      ∃ a : F, (fun m : Fin n => entry R i (k + m.val)) = a • svec := by
    intro i hi hz
    refine ker_span_secret hk (Matrix.of fun j m => entry E j.val m.val) hindepL svec hs0
      horth _ ?_
    intro j
    have hrel := hQA i hi j.val j.isLt
    simp only [← entry_def] at hrel
    calc ∑ m : Fin n, Matrix.of (fun j m => entry E j.val m.val) j m * entry R i (k + m.val)
        = ∑ m : Fin n, entry R i (k + m.val) * entry E j.val m.val := by
          refine Finset.sum_congr rfl fun m _ => ?_
          rw [Matrix.of_apply, mul_comm]
      _ = entry R i j.val := hrel.symm
      _ = 0 := hz j.val j.isLt
  have hpvnz : ∀ i, i < n → ¬ (fun m : Fin n => entry R i (k + m.val)) = 0 := by
    intro i hi h0
    apply hdet
    apply Matrix.det_eq_zero_of_row_eq_zero (⟨i, hi⟩ : Fin n)
    intro m
    rw [pmatL_apply]
    exact congrFun h0 m
  have hzeroa : ∀ i, (hi : i < pcs.length) → k ≤ pcs.get ⟨i, hi⟩ →
      ∀ j, j < k → entry R i j = 0 := by
    intro i hi hge j hj
    exact (hpiv i hi).2.2 j (by omega)
  have hdistinct : ∀ i1 i2, i1 < n → i2 < n → i1 ≠ i2 →
      (∀ j, j < k → entry R i1 j = 0) → (∀ j, j < k → entry R i2 j = 0) → False := by
    intro i1 i2 h1 h2 hne hz1 hz2
    obtain ⟨a, ha⟩ := hnull i1 h1 hz1
    obtain ⟨b, hb⟩ := hnull i2 h2 hz2
    have ha0 : a ≠ 0 := by
      rintro rfl
      rw [zero_smul] at ha
      exact hpvnz i1 h1 ha
    have hb0 : b ≠ 0 := by
      rintro rfl
      rw [zero_smul] at hb
      exact hpvnz i2 h2 hb
    apply hdet
    refine det_eq_zero_of_smul_row (i := ⟨i1, h1⟩) (j := ⟨i2, h2⟩)
      (Fin.ne_of_val_ne hne) (a * b⁻¹) ?_
    funext m
    have e1 := congrFun ha m
    have e2 := congrFun hb m
    simp only [Pi.smul_apply, smul_eq_mul] at e1 e2
    show entry R i1 (k + m.val) = ((a * b⁻¹) • pmatL k n R ⟨i2, h2⟩) m
    rw [Pi.smul_apply, smul_eq_mul, pmatL_apply]
    show entry R i1 (k + m.val) = a * b⁻¹ * entry R i2 (k + m.val)
    rw [e1, e2, mul_assoc, ← mul_assoc (b⁻¹), inv_mul_cancel₀ hb0, one_mul]
  have hlastlen : n - 1 < pcs.length := by omega
  have hlastge : k ≤ pcs.get ⟨n - 1, hlastlen⟩ := by
    by_contra h
    push_neg at h
    have := pairwise_get_ge hpair (n - 1) hlastlen
    omega
  have hlastzero : ∀ j, j < k → entry R (n - 1) j = 0 := hzeroa (n - 1) hlastlen hlastge
  obtain ⟨b, hb⟩ := hnull (n - 1) (by omega) hlastzero
  have hb0 : b ≠ 0 := by
    rintro rfl
    rw [zero_smul] at hb
    exact hpvnz (n - 1) (by omega) hb
  have hcLlt : pcs.get ⟨n - 1, hlastlen⟩ < k + n := hpcols _ (pcs.get_mem _ _)
  obtain ⟨hone, hothers, hlead⟩ := hpiv (n - 1) hlastlen
  set j0 : Fin n := ⟨pcs.get ⟨n - 1, hlastlen⟩ - k, by omega⟩ with hj0def
  have hpj0 : entry R (n - 1) (k + j0.val) = 1 := by
    have hcol : k + j0.val = pcs.get ⟨n - 1, hlastlen⟩ := by
      rw [hj0def]
      simp only [Fin.val_mk]
      omega
    rw [hcol]
    exact hone
  have hbj0 : b * svec j0 = 1 := by
    have hc := congrFun hb j0
    simp only [Pi.smul_apply, smul_eq_mul] at hc
    rw [hpj0] at hc
    exact hc.symm
  have hsj0 : svec j0 ≠ 0 := by
    intro h0
    rw [h0, mul_zero] at hbj0
    exact one_ne_zero hbj0.symm
  have hbinv : b = (svec j0)⁻¹ := eq_inv_of_mul_eq_one_left hbj0
  refine ⟨j0, hsj0, ?_, hlastzero, ?_, ?_⟩
  · intro m hm
    have hcol : k + m.val < pcs.get ⟨n - 1, hlastlen⟩ := by
      have : m.val < pcs.get ⟨n - 1, hlastlen⟩ - k := hm
      omega
    have hz := hlead (k + m.val) hcol
    have hc := congrFun hb m
    simp only [Pi.smul_apply, smul_eq_mul] at hc
    rw [hz] at hc
    rcases mul_eq_zero.mp hc.symm with h | h
    · exact absurd h hb0
    · exact h
  · intro m
    have hc := congrFun hb m
    simp only [Pi.smul_apply, smul_eq_mul] at hc
    rw [hc, hbinv]
  · intro i hi
    refine ⟨pcs.get ⟨i, by omega⟩, ?_, ?_⟩
    · by_contra hge
      push_neg at hge
      exact hdistinct i (n - 1) (by omega) (by omega) (by omega)
        (hzeroa i (by omega) hge) hlastzero
    · rw [(hpiv i (by omega)).1]
      exact one_ne_zero

/-! ### Glue between the matrix-level last-row theorem and the extractors -/

/-- The Fermat form of `pow(x, -1, p)` inverts every non-zero element of
`ZMod p` for any prime `p`. -/
lemma pyModInv_spec (p : ℕ) [Fact p.Prime] : ∀ x : ZMod p, x ≠ 0 → pyModInv p x * x = 1 := by
  intro x hx
  have hp : 2 ≤ p := (Fact.out : p.Prime).two_le
  have h1 : p - 2 + 1 = p - 1 := by omega
  rw [pyModInv, ← pow_succ, h1, ZMod.pow_card_sub_one_eq_one hx]

/-- A digit below the modulus casts to zero exactly when it is zero. -/
lemma digit_cast_eq_zero_iff {p d : ℕ} (hd : d < p) : ((d : ZMod p) = 0) ↔ d = 0 := by
  constructor
  · intro h
    have hv := ZMod.val_cast_of_lt hd
    rw [h, ZMod.val_zero] at hv
    exact hv.symm
  · rintro rfl
    exact Nat.cast_zero

/-- A digit string that is not the all-zero string has a non-zero digit. -/
lemma exists_nonzero_getD {n : ℕ} {s : DStr} (hlen : s.length = n)
    (hne : s ≠ List.replicate n 0) : ∃ i, i < n ∧ s.getD i 0 ≠ 0 := by
  by_contra h
  push_neg at h
  apply hne
  refine List.ext_getElem (by rw [hlen, List.length_replicate]) ?_
  intro i h1 h2
  rw [List.getElem_replicate]
  have hi : i < n := by rwa [hlen] at h1
  have h0 := h i hi
  rwa [List.getD_eq_getElem s 0 h1] at h0

/-- The boolean first-`k`-entries-vanish test, elementwise. -/
lemma all_take_zero_iff (l : List F) (k : ℕ) (hk : k ≤ l.length) :
    (((l.take k).all fun x => x = 0) = true) ↔ ∀ j, j < k → l.getD j 0 = 0 := by
  rw [List.all_eq_true]
  constructor
  · intro h j hj
    have hjl : j < l.length := lt_of_lt_of_le hj hk
    have hjt : j < (l.take k).length := by
      rw [List.length_take]
      exact lt_inf_iff.mpr ⟨hj, hjl⟩
    have hmem := h ((l.take k).get ⟨j, hjt⟩) (List.get_mem _ _ _)
    rw [List.get_eq_getElem, List.getElem_take] at hmem
    rw [List.getD_eq_getElem l 0 hjl]
    simpa using hmem
  · intro h x hx
    obtain ⟨j, hjt, hxj⟩ := List.mem_iff_getElem.mp hx
    have hjk : j < k := lt_of_lt_of_le hjt (by rw [List.length_take]; exact inf_le_left)
    have hjl : j < l.length := lt_of_lt_of_le hjk hk
    have h0 := h j hjk
    rw [List.getD_eq_getElem l 0 hjl] at h0
    rw [← hxj, List.getElem_take]
    simpa using h0

/-- The test fails as soon as one of the first `k` entries is non-zero. -/
lemma all_take_zero_false (l : List F) (k j : ℕ) (hk : k ≤ l.length) (hj : j < k)
    (hnz : l.getD j 0 ≠ 0) : ((l.take k).all fun x => x = 0) = false := by
  rw [Bool.eq_false_iff]
  intro h
  exact hnz ((all_take_zero_iff l k hk).mp h j hj)

/-- `entry` of a digit matrix mapped entrywise through a zero-preserving
coercion. -/
lemma entry_map (c : ℕ → F) (hc : c 0 = 0) (eqs : List DStr) (i j : ℕ) :
    entry (eqs.map fun v => v.map c) i j = c ((eqs.getD i []).getD j 0) := by
  show (((eqs.map fun v => v.map c).getD i []).getD j 0) = c ((eqs.getD i []).getD j 0)
  have hmap : ∀ l : List ℕ, ((l.map c).getD j 0) = c (l.getD j 0) := by
    intro l
    by_cases hj : j < l.length
    · rw [List.getD_eq_getElem (l.map c) 0 (by simpa using hj), List.getElem_map,
        List.getD_eq_getElem l 0 hj]
    · rw [List.getD_eq_default (l.map c) 0 (by simpa using Nat.le_of_not_lt hj),
        List.getD_eq_default l 0 (Nat.le_of_not_lt hj), hc]
  by_cases hi : i < eqs.length
  · have hro : (eqs.map fun v => v.map c).getD i [] = (eqs.getD i []).map c := by
      rw [List.getD_eq_getElem (eqs.map fun v => v.map c) [] (by simpa using hi),
        List.getElem_map, List.getD_eq_getElem eqs [] hi]
    rw [hro, hmap]
  · rw [List.getD_eq_default (eqs.map fun v => v.map c) [] (by simpa using Nat.le_of_not_lt hi),
      List.getD_eq_default eqs [] (Nat.le_of_not_lt hi)]
    simp [hc]

/-- Entrywise coercion of a rectangular digit matrix is rectangular. -/
lemma rect_map (c : ℕ → F) {k n : ℕ} (eqs : List DStr) (hlen : eqs.length = k)
    (hrows : ∀ v ∈ eqs, v.length = n) : Rect k n (eqs.map fun v => v.map c) := by
  constructor
  · rw [List.length_map, hlen]
  · intro i hi
    have hi2 : i < eqs.length := by rw [hlen]; exact hi
    show ((eqs.map fun v => v.map c).getD i []).length = n
    rw [List.getD_eq_getElem _ _ (by simpa using hi2), List.getElem_map, List.length_map]
    exact hrows _ (List.getElem_mem hi2)

/-- The ternary row scan agrees with the `find?`-style first-row rule
(shared form of the C2 analysis, for reuse). -/
lemma findFirstSolution_eq_spec (R : Mat (ZMod 3)) (k n : ℕ) :
    findFirstSolution R k n = firstRowRuleSpec R k n := by
  rw [findFirstSolution, firstRowRuleSpec]
  induction R with
  | nil => rfl
  | cons r0 rest ih =>
    by_cases h : ((r0.take k).all fun x => x = 0) = true
    · rw [List.foldl_cons, List.find?_cons, if_pos h, if_neg (by simp), h]
      simp only [cond_true]
      rw [findFirstSolution_foldl_true]
    · have hb : ((r0.take k).all fun x => x = 0) = false := by simpa using h
      rw [List.foldl_cons, List.find?_cons, if_neg h, hb]
      simpa using ih

/-- `find?` returns the last element when every earlier element fails the
predicate and the last one passes. -/
lemma find_of_last {α : Type} (P : α → Bool) (l : List α) (d : α) (h1 : 1 ≤ l.length)
    (hbad : ∀ i, i < l.length - 1 → P (l.getD i d) = false)
    (hgood : P (l.getD (l.length - 1) d) = true) :
    l.find? P = some (l.getD (l.length - 1) d) := by
  induction l with
  | nil => simp at h1
  | cons a rest ih =>
    rcases Nat.eq_zero_or_pos rest.length with h0 | hpos
    · have hrest : rest = [] := List.length_eq_zero.mp h0
      subst hrest
      have hga : P a = true := by simpa using hgood
      rw [List.find?_cons, hga]
      simp
    · have e : (a :: rest).length - 1 = (rest.length - 1) + 1 := by
        simp only [List.length_cons]
        omega
      rw [e, List.getD_cons_succ] at hgood ⊢
      have hba : P a = false := by
        have := hbad 0 (by simp only [List.length_cons]; omega)
        simpa using this
      rw [List.find?_cons, hba]
      simp only [cond_false]
      refine ih hpos ?_ hgood
      intro i hi
      have := hbad (i + 1) (by simp only [List.length_cons]; omega)
      rwa [List.getD_cons_succ] at this

/-- When every row before the last fails the null test and the last row
passes it, the ternary row scan returns the last row's identity-block
entries. -/
lemma findFirstSolution_eq_of_last (R : Mat (ZMod 3)) (k n : ℕ) (h1 : 1 ≤ R.length)
    (hbad : ∀ i, i < R.length - 1 → ((rowOf R i).take k).all (fun x => x = 0) = false)
    (hgood : ((rowOf R (R.length - 1)).take k).all (fun x => x = 0) = true) :
    findFirstSolution R k n = ((rowOf R (R.length - 1)).drop k).map ZMod.val := by
  rw [findFirstSolution_eq_spec, firstRowRuleSpec]
  have hfind := find_of_last (fun r0 => (r0.take k).all fun x => x = 0) R [] h1 hbad hgood
  rw [hfind]
  rfl

/-- Digit-string form of the last-row analysis: for `k = n - 1` independent
mod-`p` constraint rows orthogonal to a non-zero digit secret `s` whose first
non-zero digit sits at position `j0`, every row of the reduced augmented
matrix except the last fails the null test, the last row passes it, and the
last row's identity block reads off the monic normalisation
`(s_{j0})⁻¹ · s`. -/
lemma rref_last_row_digits (p : ℕ) [Fact p.Prime] {k n : ℕ} (hk : k + 1 = n)
    (eqs : List DStr) (hlen : eqs.length = k) (hrows : ∀ v ∈ eqs, v.length = n)
    (s : DStr) (hslen : s.length = n) (hsdig : ∀ d ∈ s, d < p)
    (j0 : ℕ) (hj0n : j0 < n) (hj0nz : s.getD j0 0 ≠ 0)
    (hj0min : ∀ m, m < j0 → s.getD m 0 = 0)
    (horth : ∀ j : Fin k, ∑ m : Fin n,
      ((eqs.getD j.val []).getD m.val 0 : ZMod p) * (s.getD m.val 0 : ZMod p) = 0)
    (hindep : ∀ g : Fin k → ZMod p,
      (∀ m : Fin n, ∑ j : Fin k,
        g j * ((eqs.getD j.val []).getD m.val 0 : ZMod p) = 0) → ∀ j, g j = 0) :
    (∀ i, i < n - 1 →
      ((rowOf (rrefF (pyModInv p) n (k + n)
          (mkAugmented (transposeL (eqs.map fun v => v.map fun d : ℕ => (d : ZMod p)) k n))).1 i).take
        k).all (fun x => x = 0) = false) ∧
    ((rowOf (rrefF (pyModInv p) n (k + n)
        (mkAugmented (transposeL (eqs.map fun v => v.map fun d : ℕ => (d : ZMod p)) k n))).1
          (n - 1)).take k).all (fun x => x = 0) = true ∧
    ((rowOf (rrefF (pyModInv p) n (k + n)
        (mkAugmented (transposeL (eqs.map fun v => v.map fun d : ℕ => (d : ZMod p)) k n))).1
          (n - 1)).drop k).map ZMod.val
      = (List.range n).map fun m => ((s.getD j0 0 : ZMod p)⁻¹ * (s.getD m 0 : ZMod p)).val := by
  have hEE : Rect k n (eqs.map fun v => v.map fun d : ℕ => (d : ZMod p)) :=
    rect_map _ eqs hlen hrows
  have hEentry : ∀ i j, entry (eqs.map fun v => v.map fun d : ℕ => (d : ZMod p)) i j
      = ((eqs.getD i []).getD j 0 : ZMod p) :=
    fun i j => entry_map _ Nat.cast_zero eqs i j
  have hdiglt : ∀ m : Fin n, s.getD m.val 0 < p := by
    intro m
    have hm : m.val < s.length := by rw [hslen]; exact m.isLt
    rw [List.getD_eq_getElem s 0 hm]
    exact hsdig _ (List.getElem_mem hm)
  have hs0 : (fun m : Fin n => (s.getD m.val 0 : ZMod p)) ≠ 0 := by
    intro h0
    have h1 := congrFun h0 ⟨j0, hj0n⟩
    rw [Pi.zero_apply] at h1
    exact hj0nz ((digit_cast_eq_zero_iff (hdiglt ⟨j0, hj0n⟩)).mp h1)
  have horthE : ∀ j : Fin k, ∑ m : Fin n,
      entry (eqs.map fun v => v.map fun d : ℕ => (d : ZMod p)) j.val m.val
        * (s.getD m.val 0 : ZMod p) = 0 := by
    intro j
    refine Eq.trans ?_ (horth j)
    exact Finset.sum_congr rfl fun m _ => by rw [hEentry]
  have hindepE : ∀ g : Fin k → ZMod p,
      (∀ m : Fin n, ∑ j : Fin k,
        g j * entry (eqs.map fun v => v.map fun d : ℕ => (d : ZMod p)) j.val m.val = 0) →
      ∀ j, g j = 0 := by
    intro g hg j
    refine hindep g ?_ j
    intro m
    refine Eq.trans ?_ (hg m)
    exact Finset.sum_congr rfl fun jj _ => by rw [hEentry]
  obtain ⟨j0f, hj0fnz, hj0fmin, hz, hid, hbefore⟩ :=
    rref_augmented_last_row (pyModInv p) (pyModInv_spec p) hk
      (eqs.map fun v => v.map fun d : ℕ => (d : ZMod p)) hEE
      (fun m : Fin n => (s.getD m.val 0 : ZMod p)) hs0 horthE hindepE
  have hj0f : j0f = (⟨j0, hj0n⟩ : Fin n) := by
    have h1 : ¬ j0f.val < j0 := by
      intro hlt
      apply hj0fnz
      show ((s.getD j0f.val 0 : ℕ) : ZMod p) = 0
      rw [hj0min _ hlt, Nat.cast_zero]
    have h2 : ¬ j0 < j0f.val := by
      intro hlt
      have h3 := hj0fmin ⟨j0, hj0n⟩ hlt
      exact hj0nz ((digit_cast_eq_zero_iff (hdiglt ⟨j0, hj0n⟩)).mp h3)
    refine Fin.ext ?_
    simp only [Fin.val_mk]
    omega
  subst hj0f
  have hid2 : ∀ m : Fin n,
      entry (rrefF (pyModInv p) n (k + n)
        (mkAugmented (transposeL (eqs.map fun v => v.map fun d : ℕ => (d : ZMod p)) k n))).1
        (n - 1) (k + m.val)
      = (s.getD j0 0 : ZMod p)⁻¹ * (s.getD m.val 0 : ZMod p) := hid
  obtain ⟨hform, -, -⟩ := rrefF_augmented (pyModInv p) (pyModInv_spec p)
    (eqs.map fun v => v.map fun d : ℕ => (d : ZMod p)) hEE
  have hrowlen : ∀ i, i < n →
      (rowOf (rrefF (pyModInv p) n (k + n)
        (mkAugmented (transposeL (eqs.map fun v => v.map fun d : ℕ => (d : ZMod p)) k n))).1
        i).length = k + n := hform.1.2
  refine ⟨?_, ?_, ?_⟩
  · intro i hi
    obtain ⟨j, hjk, hjnz⟩ := hbefore i hi
    exact all_take_zero_false _ k j (by rw [hrowlen i (by omega)]; omega) hjk hjnz
  · rw [all_take_zero_iff _ k (by rw [hrowlen (n - 1) (by omega)]; omega)]
    intro j hj
    exact hz j hj
  · refine List.ext_getElem ?_ ?_
    · rw [List.length_map, List.length_drop, hrowlen (n - 1) (by omega),
        List.length_map, List.length_range]
      omega
    · intro m h1 h2
      rw [List.getElem_map, List.getElem_drop, List.getElem_map, List.getElem_range]
      have hmn : m < n := by simpa using h2
      have hkm : m < ((rrefF (pyModInv p) n (k + n)
          (mkAugmented (transposeL (eqs.map fun v => v.map fun d : ℕ => (d : ZMod p)) k n))).1.getD
            (n - 1) []).length - k := by
        have := hrowlen (n - 1) (by omega)
        rw [rowOf] at this
        rw [this]
        omega
      have hidm := hid2 ⟨m, hmn⟩
      simp only [Fin.val_mk] at hidm
      have hkm2 : k + m <
          (rowOf (rrefF (pyModInv p) n (k + n)
            (mkAugmented (transposeL (eqs.map fun v => v.map fun d : ℕ => (d : ZMod p)) k n))).1
            (n - 1)).length := by
        rw [hrowlen (n - 1) (by omega)]
        omega
      rw [entry_def, List.getD_eq_getElem _ 0 hkm2] at hidm
      rw [hidm]
/-- C1.  Binary round-trip: for every `n ≥ 2` and non-zero binary secret `s`
of length `n`, if the equation list consists of `n - 1` linearly independent
non-zero binary vectors each orthogonal to `s` mod 2, then `solve_equation`
returns exactly `s`. -/
theorem claim_C1_binary_roundtrip
    (n : ℕ) (hn : 2 ≤ n)
    (s : DStr) (hslen : s.length = n) (hsdig : ∀ d ∈ s, d < 2)
    (hsne : s ≠ List.replicate n 0)
    (eqs : List DStr) (hlen : eqs.length = n - 1)
    (hrows : ∀ v ∈ eqs, v.length = n)
    (hvne : ∀ v ∈ eqs, v ≠ List.replicate n 0)
    (horth : ∀ j : Fin (n - 1), ∑ m : Fin n,
      ((eqs.getD j.val []).getD m.val 0 : ZMod 2) * (s.getD m.val 0 : ZMod 2) = 0)
    (hindep : ∀ g : Fin (n - 1) → ZMod 2,
      (∀ m : Fin n, ∑ j : Fin (n - 1),
        g j * ((eqs.getD j.val []).getD m.val 0 : ZMod 2) = 0) → ∀ j, g j = 0) :
    solve_equation eqs = s := by
  have hk : (n - 1) + 1 = n := by omega
  have hex : ∃ i, i < n ∧ s.getD i 0 ≠ 0 := exists_nonzero_getD hslen hsne
  have hex2 : ∃ i, s.getD i 0 ≠ 0 := ⟨hex.choose, hex.choose_spec.2⟩
  have hj0nz : s.getD (Nat.find hex2) 0 ≠ 0 := Nat.find_spec hex2
  have hj0min : ∀ m, m < Nat.find hex2 → s.getD m 0 = 0 := by
    intro m hm
    have h0 := Nat.find_min hex2 hm
    simpa using h0
  have hj0n : Nat.find hex2 < n := by
    obtain ⟨i, hi, hinz⟩ := hex
    have := Nat.find_min' hex2 hinz
    omega
  obtain ⟨hfail, hpass, hdrop⟩ := rref_last_row_digits 2 hk eqs hlen hrows s hslen hsdig
    (Nat.find hex2) hj0n hj0nz hj0min horth hindep
  have hne : eqs ≠ [] := by
    intro h
    rw [h] at hlen
    simp only [List.length_nil] at hlen
    omega
  obtain ⟨v0, rest, hv0⟩ := List.exists_cons_of_ne_nil hne
  have hheadI : eqs.headI.length = n := by
    rw [hv0]
    show v0.length = n
    exact hrows v0 (by rw [hv0]; exact List.mem_cons_self v0 rest)
  have hsolve : solve_equation eqs =
      extractLast (rrefF (pyModInv 2) eqs.headI.length (eqs.length + eqs.headI.length)
        (mkAugmented (transposeL (eqs.map fun v => v.map fun d : ℕ => (d : ZMod 2))
          eqs.length eqs.headI.length))).1 eqs.length eqs.headI.length := rfl
  rw [hsolve, hlen, hheadI, extractLast, if_pos hpass, hdrop]
  refine List.ext_getElem (by rw [List.length_map, List.length_range, hslen]) ?_
  intro i h1 h2
  rw [List.getElem_map, List.getElem_range]
  have hj0lt : s.getD (Nat.find hex2) 0 < 2 := by
    have hm : Nat.find hex2 < s.length := by omega
    rw [List.getD_eq_getElem s 0 hm]
    exact hsdig _ (List.getElem_mem hm)
  have hone : (s.getD (Nat.find hex2) 0 : ZMod 2) = 1 := by
    have hd1 : s.getD (Nat.find hex2) 0 = 1 := by omega
    rw [hd1, Nat.cast_one]
  rw [hone, inv_one, one_mul, List.getD_eq_getElem s 0 h2]
  exact ZMod.val_cast_of_lt (hsdig _ (List.getElem_mem h2))

/-- Witness for C1 at `n = 2`, `s = "11"`, single equation `"11"`. -/
theorem claim_C1_binary_roundtrip_witness : solve_equation [[1, 1]] = [1, 1] :=
  claim_C1_binary_roundtrip 2 (by decide) [1, 1] (by decide) (by decide) (by decide)
    [[1, 1]] (by decide) (by decide) (by decide) (by decide) (by decide)

/-- C3 amended.  Ternary round-trip up to monic normalisation: for `n ≥ 2`
and a non-zero ternary secret `s` whose first non-zero digit sits at `j0`,
if the filtered-and-converted measurement results give `n - 1` independent
constraint rows orthogonal to `s` mod 3, then `recover_secret_string_3d`
returns the bare string `(s_{j0})⁻¹ · s` (digitwise mod 3) — the monic scalar
multiple of `s`, which equals `s` itself only when `s_{j0} = 1`. -/
theorem claim_C3_secret_recovery
    (n : ℕ) (hn : 2 ≤ n)
    (s : DStr) (hslen : s.length = n) (hsdig : ∀ d ∈ s, d < 3)
    (j0 : ℕ) (hj0n : j0 < n) (hj0nz : s.getD j0 0 ≠ 0)
    (hj0min : ∀ m, m < j0 → s.getD m 0 = 0)
    (results : List DStr)
    (hlen : ((results.filter fun r => r ≠ List.replicate (2 * n) 0).map
      binary_to_ternary).length = n - 1)
    (hrows : ∀ v ∈ (results.filter fun r => r ≠ List.replicate (2 * n) 0).map
      binary_to_ternary, v.length = n)
    (horth : ∀ j : Fin (n - 1), ∑ m : Fin n,
      ((((results.filter fun r => r ≠ List.replicate (2 * n) 0).map
        binary_to_ternary).getD j.val []).getD m.val 0 : ZMod 3)
        * (s.getD m.val 0 : ZMod 3) = 0)
    (hindep : ∀ g : Fin (n - 1) → ZMod 3,
      (∀ m : Fin n, ∑ j : Fin (n - 1),
        g j * ((((results.filter fun r => r ≠ List.replicate (2 * n) 0).map
          binary_to_ternary).getD j.val []).getD m.val 0 : ZMod 3) = 0)
      → ∀ j, g j = 0) :
    recover_secret_string_3d n results =
      Sum.inr ((List.range n).map fun m =>
        ((s.getD j0 0 : ZMod 3)⁻¹ * (s.getD m 0 : ZMod 3)).val) := by
  have hk : (n - 1) + 1 = n := by omega
  set eqs := (results.filter fun r => r ≠ List.replicate (2 * n) 0).map binary_to_ternary
    with heqs
  obtain ⟨hfail, hpass, hdrop⟩ := rref_last_row_digits 3 hk eqs hlen hrows s hslen hsdig
    j0 hj0n hj0nz hj0min horth hindep
  have hne : eqs ≠ [] := by
    intro h
    rw [h] at hlen
    simp only [List.length_nil] at hlen
    omega
  obtain ⟨v0, rest, hv0⟩ := List.exists_cons_of_ne_nil hne
  have hheadI : eqs.headI.length = n := by
    rw [hv0]
    show v0.length = n
    exact hrows v0 (by rw [hv0]; exact List.mem_cons_self v0 rest)
  have hrec : recover_secret_string_3d n results =
      (if eqs = [] then Sum.inl (List.replicate n 0, 0) else
        Sum.inr (findFirstSolution
          (rrefF (pyModInv 3) eqs.headI.length (eqs.length + eqs.headI.length)
            (mkAugmented (transposeL (eqs.map fun v => v.map fun d : ℕ => (d : ZMod 3))
              eqs.length eqs.headI.length))).1
          eqs.length n)) := rfl
  rw [hrec, if_neg hne, hheadI, hlen]
  obtain ⟨hform, -, -⟩ := rrefF_augmented (pyModInv 3) (pyModInv_spec 3)
    (eqs.map fun v => v.map fun d : ℕ => (d : ZMod 3)) (rect_map _ eqs hlen hrows)
  have hR1len : (rrefF (pyModInv 3) n (n - 1 + n)
      (mkAugmented (transposeL (eqs.map fun v => v.map fun d : ℕ => (d : ZMod 3))
        (n - 1) n))).1.length = n := hform.1.1
  have h1R : 1 ≤ (rrefF (pyModInv 3) n (n - 1 + n)
      (mkAugmented (transposeL (eqs.map fun v => v.map fun d : ℕ => (d : ZMod 3))
        (n - 1) n))).1.length := by
    rw [hR1len]
    omega
  have hbadR : ∀ i, i < (rrefF (pyModInv 3) n (n - 1 + n)
      (mkAugmented (transposeL (eqs.map fun v => v.map fun d : ℕ => (d : ZMod 3))
        (n - 1) n))).1.length - 1 →
      ((rowOf (rrefF (pyModInv 3) n (n - 1 + n)
        (mkAugmented (transposeL (eqs.map fun v => v.map fun d : ℕ => (d : ZMod 3))
          (n - 1) n))).1 i).take (n - 1)).all (fun x => x = 0) = false := by
    simp only [hR1len]
    exact hfail
  have hgoodR : ((rowOf (rrefF (pyModInv 3) n (n - 1 + n)
      (mkAugmented (transposeL (eqs.map fun v => v.map fun d : ℕ => (d : ZMod 3))
        (n - 1) n))).1 ((rrefF (pyModInv 3) n (n - 1 + n)
      (mkAugmented (transposeL (eqs.map fun v => v.map fun d : ℕ => (d : ZMod 3))
        (n - 1) n))).1.length - 1)).take (n - 1)).all (fun x => x = 0) = true := by
    rw [hR1len]
    exact hpass
  rw [findFirstSolution_eq_of_last _ (n - 1) n h1R hbadR hgoodR, hR1len, hdrop]

/-- Witness for the amended C3 at `n = 2`, secret `s = "21"` (first non-zero
digit `2` at position `0`), single measurement outcome `"0101"` (constraint
`(1,1)`, orthogonal to `s` mod 3): the returned string is the monic multiple
`2⁻¹ · s = "12"`, not `s`. -/
theorem claim_C3_secret_recovery_witness :
    recover_secret_string_3d 2 [[0, 1, 0, 1]] =
      Sum.inr ((List.range 2).map fun m =>
        (((([2, 1] : DStr).getD 0 0 : ZMod 3))⁻¹ * ((([2, 1] : DStr).getD m 0 : ZMod 3))).val) :=
  claim_C3_secret_recovery 2 (by decide) [2, 1] (by decide) (by decide) 0 (by decide)
    (by decide) (by decide) [[0, 1, 0, 1]] (by decide) (by decide) (by decide) (by decide)

example : solve_equation [[1, 1, 0], [0, 1, 1]] = [1, 1, 1] := by decide
example : rref_mod3 [[1, 1, 0], [1, 0, 1]] = ([[1, 0, 1], [0, 1, 2]], [0, 1]) := by decide
example : recover_secret_string_3d 3 [[0, 0, 0, 0, 0, 1]] = Sum.inr [1, 0, 0] := by decide
example : recover_secret_string_3d 2 [[0, 1, 0, 1]] = Sum.inr [1, 2] := by decide

end QSimon
